/-
Verification of the ccr_router_configuration protocol transcoders.

Shallow embedding of the JavaScript sources:
  * `ClaudeAnthropicTransformer` (src/unnamed/part_000) and
    `KimiAnthropicTransformer` (src/plugins/kimi-anthropic.js) — their
    `_mapStopReason`, `_processSSEEvent`, `_transformJsonResponse` and the
    SSE line-framing read loop.  For every construct covered by a claim the
    two classes are letter-for-letter identical, so they share one model;
    where they differ (the `done` branch of the read loop matters) the
    difference is modelled explicitly.
  * `GeminiCLITransformer` (src/plugins/gemini-cli.js) — `processJsonSchema`,
    `flattenTypeArrayToAnyOf`, `tTool`, the tool part of
    `transformRequestIn`, and both branches of `transformResponseOut`.

Conventions:
  * JavaScript values that can be absent are `Option`; `none` plays the
    role of `undefined`/missing.
  * Machine-time fields (`created`, `Date.now()` fallback ids) carry no
    information relevant to any claim and are omitted from the chunk model.
  * JSON documents are modelled by the inductive `JVal`; JavaScript object
    field order is the list order, and assignment keeps the position of an
    existing key (as JS insertion-order semantics do).
  * Throwing JavaScript code is modelled in `Except JsErr`.
-/
import Mathlib

namespace CCR

/-! ## JSON values

JavaScript/JSON documents.  `jnull` doubles for `null`; absent fields and
`undefined` are represented by `Option.none` at the use sites.  Object
fields are kept in insertion order, as JavaScript enumeration does for
non-numeric keys. -/

inductive JVal where
  | jnull
  | jbool (b : Bool)
  | jnum (n : Int)
  | jstr (s : String)
  | jarr (elems : List JVal)
  | jobj (fields : List (String × JVal))
  deriving Repr

mutual

def JVal.beq : JVal → JVal → Bool
  | .jnull, .jnull => true
  | .jbool a, .jbool b => a == b
  | .jnum a, .jnum b => a == b
  | .jstr a, .jstr b => a == b
  | .jarr a, .jarr b => JVal.beqList a b
  | .jobj a, .jobj b => JVal.beqFields a b
  | _, _ => false

def JVal.beqList : List JVal → List JVal → Bool
  | [], [] => true
  | a :: as, b :: bs => JVal.beq a b && JVal.beqList as bs
  | _, _ => false

def JVal.beqFields : List (String × JVal) → List (String × JVal) → Bool
  | [], [] => true
  | (k1, v1) :: as, (k2, v2) :: bs => k1 == k2 && JVal.beq v1 v2 && JVal.beqFields as bs
  | _, _ => false

end

instance : BEq JVal := ⟨JVal.beq⟩

mutual

/-- Soundness of `JVal.beq` (stated as a `def` because the `DecidableEq`
instance below consumes it). -/
def JVal.eq_of_beq : ∀ {a b : JVal}, JVal.beq a b = true → a = b
  | .jnull, .jnull, _ => rfl
  | .jbool _, .jbool _, h => by
      simpa [JVal.beq] using congrArg JVal.jbool (by simpa [JVal.beq] using h)
  | .jnum _, .jnum _, h => by
      exact congrArg JVal.jnum (by simpa [JVal.beq] using h)
  | .jstr _, .jstr _, h => by
      exact congrArg JVal.jstr (by simpa [JVal.beq] using h)
  | .jarr a, .jarr b, h =>
      congrArg JVal.jarr (JVal.eqList_of_beq (a := a) (b := b) (by simpa [JVal.beq] using h))
  | .jobj a, .jobj b, h =>
      congrArg JVal.jobj (JVal.eqFields_of_beq (a := a) (b := b) (by simpa [JVal.beq] using h))

def JVal.eqList_of_beq : ∀ {a b : List JVal}, JVal.beqList a b = true → a = b
  | [], [], _ => rfl
  | x :: xs, y :: ys, h => by
      have h' := h
      simp only [JVal.beqList, Bool.and_eq_true] at h'
      exact congrArg₂ List.cons (JVal.eq_of_beq h'.1) (JVal.eqList_of_beq h'.2)

def JVal.eqFields_of_beq : ∀ {a b : List (String × JVal)}, JVal.beqFields a b = true → a = b
  | [], [], _ => rfl
  | (k1, v1) :: xs, (k2, v2) :: ys, h => by
      have h' := h
      simp only [JVal.beqFields, Bool.and_eq_true, beq_iff_eq] at h'
      have hk : k1 = k2 := h'.1.1
      have hv : v1 = v2 := JVal.eq_of_beq h'.1.2
      have ht : xs = ys := JVal.eqFields_of_beq h'.2
      simp [hk, hv, ht]

end

mutual

/-- Reflexivity of `JVal.beq`. -/
def JVal.beq_refl : ∀ a : JVal, JVal.beq a a = true
  | .jnull => rfl
  | .jbool _ => by simp [JVal.beq]
  | .jnum _ => by simp [JVal.beq]
  | .jstr _ => by simp [JVal.beq]
  | .jarr a => by simpa [JVal.beq] using JVal.beqList_refl a
  | .jobj a => by simpa [JVal.beq] using JVal.beqFields_refl a

def JVal.beqList_refl : ∀ a : List JVal, JVal.beqList a a = true
  | [] => rfl
  | x :: xs => by
      simp only [JVal.beqList, Bool.and_eq_true]
      exact ⟨JVal.beq_refl x, JVal.beqList_refl xs⟩

def JVal.beqFields_refl : ∀ a : List (String × JVal), JVal.beqFields a a = true
  | [] => rfl
  | (k, v) :: xs => by
      simp [JVal.beqFields, JVal.beq_refl v, JVal.beqFields_refl xs]

end

instance : DecidableEq JVal := fun a b =>
  decidable_of_iff (JVal.beq a b = true)
    ⟨fun h => JVal.eq_of_beq h, fun h => h ▸ JVal.beq_refl a⟩

instance : LawfulBEq JVal where
  eq_of_beq := JVal.eq_of_beq
  rfl := JVal.beq_refl _

mutual

/-- Structural size, used as the recursion fuel bound of the schema
adapter.  `jstr` counts 2: iterating a string `anyOf` spawns one extra
recursion level on its single-character substrings. -/
def JVal.jsize : JVal → Nat
  | .jnull => 1
  | .jbool _ => 1
  | .jnum _ => 1
  | .jstr _ => 2
  | .jarr l => 1 + JVal.jsizeList l
  | .jobj fs => 1 + JVal.jsizeFields fs

def JVal.jsizeList : List JVal → Nat
  | [] => 0
  | x :: xs => JVal.jsize x + JVal.jsizeList xs

def JVal.jsizeFields : List (String × JVal) → Nat
  | [] => 0
  | (_, v) :: xs => 1 + JVal.jsize v + JVal.jsizeFields xs

end

/-- JavaScript truthiness of a value (`NaN` is not representable here). -/
def truthy : JVal → Bool
  | .jnull => false
  | .jbool b => b
  | .jnum n => n != 0
  | .jstr s => s ≠ ""
  | .jarr _ => true
  | .jobj _ => true

/-- Truthiness of a possibly absent value (`undefined` is falsy). -/
def truthyO : Option JVal → Bool
  | none => false
  | some v => truthy v

/-- `a || b` on a possibly absent left operand. -/
def jsOrElse (a : Option JVal) (b : JVal) : JVal :=
  match a with
  | none => b
  | some v => if truthy v then v else b

/-- Property access `v[k]` for a non-numeric key `k` on a value that is not
`null`/`undefined` (those throw; callers model that separately): objects
look the key up, all other values yield `undefined`. -/
def getF : JVal → String → Option JVal
  | .jobj fs, k => fs.lookup k
  | _, _ => none

mutual

/-- JavaScript string coercion as used by `Array.prototype.toString`
(elements joined with `","`; `null`/`undefined` become empty). -/
def jsToStringPrim : JVal → String
  | .jnull => "null"
  | .jbool b => if b then "true" else "false"
  | .jnum n => toString n
  | .jstr s => s
  | .jarr l => JVal.arrToString l
  | .jobj _ => "[object Object]"

def JVal.arrToString : List JVal → String
  | [] => ""
  | [x] => JVal.arrElemToString x
  | x :: xs => JVal.arrElemToString x ++ "," ++ JVal.arrToString xs

def JVal.arrElemToString : JVal → String
  | .jnull => ""
  | v => jsToStringPrim v

end

/-- Escape of one character inside a serialised JSON string. -/
def escChar (c : Char) : String :=
  if c = '\x22' then "\\\x22"
  else if c = '\\' then "\\\\"
  else if c = '\n' then "\\n"
  else String.singleton c

mutual

/-- Serialisation of a JSON value, standing in for `JSON.stringify`
(objects keep field order; `undefined` members are not representable). -/
def jsStringify : JVal → String
  | .jnull => "null"
  | .jbool b => if b then "true" else "false"
  | .jnum n => toString n
  | .jstr s => "\x22" ++ String.join (s.data.map escChar) ++ "\x22"
  | .jarr l => "[" ++ jsStringifyList l ++ "]"
  | .jobj fs => "\x7b" ++ jsStringifyFields fs ++ "\x7d"

def jsStringifyList : List JVal → String
  | [] => ""
  | [x] => jsStringify x
  | x :: xs => jsStringify x ++ "," ++ jsStringifyList xs

def jsStringifyFields : List (String × JVal) → String
  | [] => ""
  | [(k, v)] => "\x22" ++ k ++ "\x22:" ++ jsStringify v
  | (k, v) :: fs => "\x22" ++ k ++ "\x22:" ++ jsStringify v ++ "," ++ jsStringifyFields fs

end

/-- `f1 + f2 + ... + fn` — string concatenation of a list of fragments. -/
def strConcat : List String → String
  | [] => ""
  | s :: rest => s ++ strConcat rest

/-! ## Finish-reason mapping (`_mapStopReason`, identical in both classes)

JS source:
```
switch (stopReason) {
  case "end_turn": return "stop";
  case "max_tokens": return "length";
  case "tool_use": return "tool_calls";
  case "stop_sequence": return "stop";
  default: return stopReason || null;
}
```
`stopReason || null` returns `null` for every falsy value, in particular for
the empty string. -/
def mapStopReason : Option String → Option String
  | some s =>
      if s = "end_turn" then some "stop"
      else if s = "max_tokens" then some "length"
      else if s = "tool_use" then some "tool_calls"
      else if s = "stop_sequence" then some "stop"
      else if s = "" then none else some s
  | none => none

/-! ## Stream state and canonical chunks -/

/-- One entry of `toolCallsBuffer`:
`{ id, type: "function", function: { name, arguments } }`.
The constant `type: "function"` field is not represented. -/
structure ToolCallEntry where
  id : String
  name : String
  arguments : String
  deriving Repr, DecidableEq

/-- The per-connection mutable variables of `_transformStreamResponse`. -/
structure StreamState where
  messageId : String
  model : String
  currentBlockIndex : Nat
  currentBlockType : Option String
  toolCallsBuffer : List ToolCallEntry
  inputTokens : Nat
  outputTokens : Nat
  hasEmittedRole : Bool
  deriving Repr, DecidableEq

/-- The fresh state initialised at the top of `_transformStreamResponse`. -/
def StreamState.initial : StreamState :=
  { messageId := "", model := "", currentBlockIndex := 0,
    currentBlockType := none, toolCallsBuffer := [],
    inputTokens := 0, outputTokens := 0, hasEmittedRole := false }

/-- One element of a chunk's `delta.tool_calls` array.  `id`/`name` are
`none` when the JS object omits them (the argument-fragment chunks carry
only `index` and `function.arguments`). -/
structure ToolCallChunkDelta where
  index : Option Nat
  id : Option String
  name : Option String
  arguments : String
  deriving Repr, DecidableEq

/-- A canonical chunk's `choices[0].delta`. -/
structure ChunkDelta where
  role : Option String := none
  content : Option String := none
  reasoning_content : Option String := none
  tool_calls : Option (List ToolCallChunkDelta) := none
  deriving Repr, DecidableEq

structure Usage where
  prompt_tokens : Nat
  completion_tokens : Nat
  total_tokens : Nat
  deriving Repr, DecidableEq

/-- A canonical `chat.completion.chunk` (the constant `object` field and the
wall-clock `created` field are omitted). -/
structure Chunk where
  id : String
  model : String
  delta : ChunkDelta
  finish_reason : Option String
  usage : Option Usage := none
  deriving Repr, DecidableEq

/-- The chunk announcing a new tool call, as emitted for a `tool_use`
`content_block_start`. -/
def toolStartChunk (msgId model : String) (index : Nat) (id name : String) : Chunk :=
  { id := msgId, model := model,
    delta := { tool_calls := some [{ index := some index, id := some id,
                                     name := some name, arguments := "" }] },
    finish_reason := none }

/-- The chunk carrying one tool-argument fragment, as emitted for an
`input_json_delta`. -/
def argFragmentChunk (msgId model : String) (index : Nat) (fragment : String) : Chunk :=
  { id := msgId, model := model,
    delta := { tool_calls := some [{ index := some index, id := none,
                                     name := none, arguments := fragment }] },
    finish_reason := none }

/-- The chunk carrying one text fragment (`text_delta`). -/
def textFragmentChunk (msgId model : String) (fragment : String) : Chunk :=
  { id := msgId, model := model,
    delta := { content := some fragment },
    finish_reason := none }

/-! ## Anthropic SSE events (the parsed `data:` payloads) -/

/-- `event.content_block` of a `content_block_start`; only the fields the
handler reads. -/
structure ContentBlockInfo where
  type : Option String
  id : String
  name : String
  deriving Repr, DecidableEq

inductive AnthropicDelta where
  | textDelta (text : String)
  | thinkingDelta (thinking : String)
  | inputJsonDelta (partialJson : String)
  | signatureDelta
  deriving Repr, DecidableEq

inductive AnthropicEvent where
  | messageStart (id : String) (model : String) (inputTokens : Nat)
  | contentBlockStart (index : Option Nat) (block : ContentBlockInfo)
  | contentBlockDelta (delta : AnthropicDelta)
  | contentBlockStop
  | messageDelta (stopReason : Option String) (outputTokens : Option Nat)
  | messageStop
  | ping
  | errorEvent
  | unknown
  deriving Repr, DecidableEq

def AnthropicEvent.isMessageStart : AnthropicEvent → Bool
  | .messageStart .. => true
  | _ => false

/-! ## `_processSSEEvent`

Faithful translation of the `switch (eventType)` body shared by
`ClaudeAnthropicTransformer` and `KimiAnthropicTransformer`.  The JS
function returns the emitted chunks interleaved with `{_state}` markers that
the read loop copies back into its local variables; the net effect is the
pair (updated state, emitted chunks) returned here.  JSON-field defaulting
(`|| 0`, `|| ""`) on `message_start` payloads is applied while decoding the
event into `AnthropicEvent`. -/
def processSSEEvent (event : AnthropicEvent) (state : StreamState) :
    StreamState × List Chunk :=
  match event with
  | .messageStart id model inputTokens =>
      let state := { state with
        messageId := id, model := model, inputTokens := inputTokens,
        hasEmittedRole := true }
      (state,
        [{ id := state.messageId, model := state.model,
           delta := { role := some "assistant", content := some "" },
           finish_reason := none }])
  | .contentBlockStart index block =>
      let state := { state with
        currentBlockIndex := index.getD state.currentBlockIndex,
        currentBlockType := block.type }
      if block.type = some "tool_use" then
        let state := { state with
          toolCallsBuffer := state.toolCallsBuffer ++
            [{ id := block.id, name := block.name, arguments := "" }] }
        let tcDelta : List ToolCallChunkDelta :=
          [{ index := some (state.toolCallsBuffer.length - 1),
             id := some block.id, name := some block.name,
             arguments := "" }]
        (state,
          [{ id := state.messageId, model := state.model,
             delta := { tool_calls := some tcDelta },
             finish_reason := none }])
      else (state, [])
  | .contentBlockDelta delta =>
      match delta with
      | .textDelta text =>
          (state,
            [{ id := state.messageId, model := state.model,
               delta := { content := some text },
               finish_reason := none }])
      | .thinkingDelta thinking =>
          (state,
            [{ id := state.messageId, model := state.model,
               delta := { reasoning_content := some thinking },
               finish_reason := none }])
      | .inputJsonDelta partialJson =>
          -- `const toolIndex = state.toolCallsBuffer.length - 1;
          --  if (toolIndex >= 0) { ... }`
          match state.toolCallsBuffer.getLast? with
          | none => (state, [])
          | some last =>
              let toolIndex := state.toolCallsBuffer.length - 1
              let state := { state with
                toolCallsBuffer := state.toolCallsBuffer.dropLast ++
                  [{ last with arguments := last.arguments ++ partialJson }] }
              let tcDelta : List ToolCallChunkDelta :=
                [{ index := some toolIndex, id := none, name := none,
                   arguments := partialJson }]
              (state,
                [{ id := state.messageId, model := state.model,
                   delta := { tool_calls := some tcDelta },
                   finish_reason := none }])
      | .signatureDelta => (state, [])
  | .contentBlockStop =>
      ({ state with currentBlockType := none }, [])
  | .messageDelta stopReason outputTokens =>
      -- `state.outputTokens = event.usage?.output_tokens || state.outputTokens`
      let state := { state with
        outputTokens :=
          match outputTokens with
          | some n => if n = 0 then state.outputTokens else n
          | none => state.outputTokens }
      (state,
        [{ id := state.messageId, model := state.model,
           delta := {},
           finish_reason := mapStopReason stopReason,
           usage := some
             { prompt_tokens := state.inputTokens,
               completion_tokens := state.outputTokens,
               total_tokens := state.inputTokens + state.outputTokens } }])
  | .messageStop => (state, [])
  | .ping => (state, [])
  | .errorEvent => (state, [])
  | .unknown => (state, [])

/-- The read loop's event dispatch: each parsed event is handed to
`_processSSEEvent` with the current state, the `_state` marker updates the
loop variables, and the remaining chunks are enqueued in order. -/
def processSSEEvents (events : List AnthropicEvent) (state : StreamState) :
    StreamState × List Chunk :=
  match events with
  | [] => (state, [])
  | e :: rest =>
      let (s1, c1) := processSSEEvent e state
      let (s2, c2) := processSSEEvents rest s1
      (s2, c1 ++ c2)

/-! ## Line framing (the `buffer`/`split("\n")` read loops)

Byte deliveries are modelled as lists of characters (UTF-8 decoding is not
in scope of any claim).  `splitNl` is `String.prototype.split("\n")`. -/

def splitNl (cs : List Char) : List (List Char) :=
  match cs with
  | [] => [[]]
  | c :: rest =>
      let r := splitNl rest
      if c = '\n' then [] :: r
      else (c :: r.headD []) :: r.tail

/-- One iteration of the read loop's framing:
`buffer += chunk; const lines = buffer.split("\n"); buffer = lines.pop() || ""`.
Returns (new carry buffer, complete lines handed to line processing). -/
def frameStep (buffer read : List Char) : List Char × List (List Char) :=
  let parts := splitNl (buffer ++ read)
  (parts.getLastD [], parts.dropLast)

/-- The logical lines processed by `ClaudeAnthropicTransformer` /
`KimiAnthropicTransformer`'s stream read loop, for a clean end of stream
after the given reads.  Their `done` branch enqueues `data: [DONE]` and
breaks at once: the carried partial line is dropped. -/
def claudeProcessedLines (buffer : List Char) : List (List Char) → List (List Char)
  | [] => []
  | r :: rs =>
      let st := frameStep buffer r
      st.2 ++ claudeProcessedLines st.1 rs

/-- The logical lines processed by `GeminiCLITransformer`'s stream read
loop: its `done` branch runs `if (buffer) { processLine(buffer, controller) }`
before breaking, so a non-empty carried partial line is processed as one
final logical line. -/
def geminiProcessedLines (buffer : List Char) : List (List Char) → List (List Char)
  | [] => if buffer = [] then [] else [buffer]
  | r :: rs =>
      let st := frameStep buffer r
      st.2 ++ geminiProcessedLines st.1 rs

/-- The carry buffer still held when the reader reports `done`. -/
def finalCarry (buffer : List Char) : List (List Char) → List Char
  | [] => buffer
  | r :: rs => finalCarry (frameStep buffer r).1 rs

/-! ## Non-stream JSON response transcoders (`_transformJsonResponse`)

`ClaudeAnthropicTransformer._transformJsonResponse` and
`KimiAnthropicTransformer._transformJsonResponse` are letter-for-letter
identical on every construct a claim mentions; one model serves both. -/

/-- A content block of an Anthropic JSON response body.  `other` covers any
block whose `type` is none of `"text"`, `"thinking"`, `"tool_use"`. -/
inductive AnthropicRespBlock where
  | text (t : String)
  | thinking (t : String)
  | toolUse (id : String) (name : String) (input : Option JVal)
  | other
  deriving Repr, DecidableEq

/-- The fields of the upstream JSON document the transcoder reads
(`usage` counters have their `|| 0` defaulting applied at decode time). -/
structure AnthropicResponse where
  model : String
  stop_reason : Option String
  content : List AnthropicRespBlock
  input_tokens : Nat
  output_tokens : Nat
  deriving Repr, DecidableEq

structure RespToolCall where
  id : String
  name : String
  arguments : String
  deriving Repr, DecidableEq

/-- The canonical `choices[0]` produced by `_transformJsonResponse`
(the wall-clock `id`/`created` fallbacks are omitted). -/
structure RespChoice where
  content : String
  reasoning_content : Option String
  tool_calls : Option (List RespToolCall)
  finish_reason : Option String
  deriving Repr, DecidableEq

/-- The content-block loop of `_transformJsonResponse`: accumulates
`textParts`, `reasoning_content` and `toolCalls` in document order. -/
def anthropicRespFold (blocks : List AnthropicRespBlock)
    (textParts : List String) (reasoning : Option String)
    (toolCalls : List RespToolCall) :
    List String × Option String × List RespToolCall :=
  match blocks with
  | [] => (textParts, reasoning, toolCalls)
  | .text t :: rest =>
      anthropicRespFold rest (textParts ++ [t]) reasoning toolCalls
  | .thinking t :: rest =>
      -- `if (!message.reasoning_content) message.reasoning_content = "";
      --  message.reasoning_content += block.thinking;`
      anthropicRespFold rest textParts
        (some ((match reasoning with
                | some r => if r = "" then "" else r
                | none => "") ++ t))
        toolCalls
  | .toolUse id name input :: rest =>
      anthropicRespFold rest textParts reasoning
        (toolCalls ++
          [{ id := id, name := name,
             arguments := jsStringify (jsOrElse input (.jobj [])) }])
  | .other :: rest => anthropicRespFold rest textParts reasoning toolCalls

/-- `_transformJsonResponse` (shared by the Claude and Kimi classes):
`content` is `textParts.join("")`, `tool_calls` is set only when non-empty,
`finish_reason` goes through `_mapStopReason`, usage is copied with the
total summed. -/
def anthropicTransformJsonResponse (data : AnthropicResponse) :
    RespChoice × Usage :=
  let acc := anthropicRespFold data.content [] none []
  ({ content := String.join acc.1,
     reasoning_content := acc.2.1,
     tool_calls := if acc.2.2.length > 0 then some acc.2.2 else none,
     finish_reason := mapStopReason data.stop_reason },
   { prompt_tokens := data.input_tokens,
     completion_tokens := data.output_tokens,
     total_tokens := data.input_tokens + data.output_tokens })

/-! ## Gemini response transcoders (`GeminiCLITransformer.transformResponseOut`) -/

structure GeminiFunctionCall where
  id : Option String
  name : Option String
  args : Option JVal
  deriving Repr, DecidableEq

/-- One element of `candidates[0].content.parts`. -/
structure GeminiPart where
  text : Option String
  functionCall : Option GeminiFunctionCall
  deriving Repr, DecidableEq

/-- One parsed upstream payload (`chunk.response` for the stream case,
`jsonResponse.response` for the JSON case); only the fields read by the
transcoder are modelled, and the `Math.random()` fallback tool-call id is
abstracted by keeping the optional upstream id. -/
structure GeminiResponse where
  responseId : Option String
  modelVersion : Option String
  parts : List GeminiPart
  finishReason : Option String
  promptTokens : Nat
  candidatesTokens : Nat
  totalTokens : Nat
  deriving Repr, DecidableEq

/-- `parts.filter((part) => part.text).map((part) => part.text).join("\n")`:
only parts with a *truthy* `text` survive the filter. -/
def geminiTextJoin (parts : List GeminiPart) : String :=
  String.intercalate "\n"
    (parts.filterMap fun p =>
      match p.text with
      | some t => if t = "" then none else some t
      | none => none)

/-- `parts?.filter((part) => part.functionCall)?.map(...)` of both branches. -/
def geminiToolCalls (parts : List GeminiPart) : List RespToolCall :=
  parts.filterMap fun p =>
    match p.functionCall with
    | some fc =>
        some { id := fc.id.getD "tool_random",
               name := fc.name.getD "",
               arguments := jsStringify (jsOrElse fc.args (.jobj [])) }
    | none => none

/-- `s.toLowerCase()` (ASCII, like `strUpper` below). -/
def strLower (s : String) : String := String.mk (s.data.map Char.toLower)

/-- `finishReason?.toLowerCase() || null`. -/
def geminiFinishReason (fr : Option String) : Option String :=
  match fr with
  | some s => if strLower s = "" then none else some (strLower s)
  | none => none

/-- The non-stream branch of `transformResponseOut`: one
`chat.completion` message. -/
def geminiTransformJsonResponse (data : GeminiResponse) : RespChoice × Usage :=
  ({ content := geminiTextJoin data.parts,
     reasoning_content := none,
     tool_calls :=
       if (geminiToolCalls data.parts).length > 0
       then some (geminiToolCalls data.parts) else none,
     finish_reason := geminiFinishReason data.finishReason },
   { prompt_tokens := data.promptTokens,
     completion_tokens := data.candidatesTokens,
     total_tokens := data.totalTokens })

/-- The stream branch's `processLine` output for one parsed `data:` line:
the emitted canonical chunk.  The `delta` always carries
`role: "assistant"` — on every chunk of the stream, not just the first. -/
def geminiStreamChunk (chunk : GeminiResponse) : Chunk :=
  let toolCalls := geminiToolCalls chunk.parts
  { id := chunk.responseId.getD "",
    model := chunk.modelVersion.getD "",
    delta :=
      { role := some "assistant",
        content := some (geminiTextJoin chunk.parts),
        tool_calls :=
          if toolCalls.length > 0
          then some (toolCalls.map fun tc =>
            { index := none, id := some tc.id, name := some tc.name,
              arguments := tc.arguments })
          else none },
    finish_reason := geminiFinishReason chunk.finishReason,
    usage := some
      { prompt_tokens := chunk.promptTokens,
        completion_tokens := chunk.candidatesTokens,
        total_tokens := chunk.totalTokens } }

/-- The gemini stream transcoder emits one canonical chunk per successfully
parsed `data:` line, in order. -/
def geminiStreamEmit (chunks : List GeminiResponse) : List Chunk :=
  chunks.map geminiStreamChunk

/-! ## JSON-Schema adapter (`processJsonSchema`, `flattenTypeArrayToAnyOf`)
and the tool mapper (`tTool`) of `gemini-cli.js`.

Thrown JavaScript exceptions are modelled in `Except JsErr`.  The
recursion is bounded by explicit fuel; `processJsonSchema` supplies
`sizeOf js + 1`, which strictly dominates the depth of the JS recursion
(every recursive call descends to a strict subterm, except the one-level
recursion on single-character strings produced by iterating a string
`anyOf`, which is covered by the `jstr` constructor's own size). -/

inductive JsErr where
  /-- A `TypeError` raised by the JS runtime (property access on
  `null`/`undefined`, a missing method, iterating a non-iterable). -/
  | typeError
  /-- A `throw new Error(msg)`. -/
  | jsError (msg : String)
  /-- Fuel exhaustion of the model; unreachable from `processJsonSchema`'s
  fuel bound. -/
  | outOfFuel
  deriving Repr, DecidableEq

/-- Property access `v[k]` that models the JS throw on `null`:
objects look up, `null` throws, every other value yields `undefined`. -/
def jsGet (v : JVal) (k : String) : Except JsErr (Option JVal) :=
  match v with
  | .jnull => .error .typeError
  | .jobj fs => .ok (fs.lookup k)
  | _ => .ok none

/-- `Object.entries(v)`: field pairs for objects, index/character pairs for
strings, index/element pairs for arrays, empty for other primitives, and a
`TypeError` for `null`. -/
def jsEntries (v : JVal) : Except JsErr (List (String × JVal)) :=
  match v with
  | .jnull => .error .typeError
  | .jobj fs => .ok fs
  | .jarr l => .ok (l.enum.map fun p => (toString p.1, p.2))
  | .jstr s => .ok (s.data.enum.map fun p => (toString p.1, .jstr (String.singleton p.2)))
  | _ => .ok []

/-- `Object.keys(v)` (for a non-null `v`). -/
def jsKeys (v : JVal) : List String :=
  match v with
  | .jobj fs => fs.map Prod.fst
  | .jarr l => (List.range l.length).map toString
  | .jstr s => (List.range s.length).map toString
  | _ => []

/-- `for (const item of v)`: arrays yield elements, strings yield
characters, everything else is not iterable and throws. -/
def jsIterate (v : JVal) : Except JsErr (List JVal) :=
  match v with
  | .jarr l => .ok l
  | .jstr s => .ok (s.data.map fun c => .jstr (String.singleton c))
  | _ => .error .typeError

/-- JS object assignment `o[k] = v`: updates in place if the key exists,
appends otherwise. -/
def setField (fs : List (String × JVal)) (k : String) (v : JVal) :
    List (String × JVal) :=
  if fs.any (fun p => p.1 == k) then
    fs.map (fun p => if p.1 == k then (k, v) else p)
  else fs ++ [(k, v)]

/-- `Object.values(Type)` of gemini-cli.js. -/
def typeEnumValues : List String :=
  ["TYPE_UNSPECIFIED", "STRING", "NUMBER", "INTEGER", "BOOLEAN", "ARRAY",
   "OBJECT", "NULL"]

/-- `Object.values(Type).includes(u) ? u : Type.TYPE_UNSPECIFIED`. -/
def mapTypeEnum (u : String) : String :=
  if typeEnumValues.contains u then u else "TYPE_UNSPECIFIED"

/-- `s.toUpperCase()` (ASCII; no schema type name involves characters whose
JS Unicode uppercasing differs). -/
def strUpper (s : String) : String := String.mk (s.data.map Char.toUpper)

/-- `x.toUpperCase()` — a `TypeError` unless `x` is a string. -/
def asUpperType : JVal → Except JsErr String
  | .jstr s => .ok (strUpper s)
  | _ => .error .typeError

/-- Loose equality `x == "null"` for the shapes that can reach it: a string
compares directly, an array is coerced through `Array.prototype.toString`,
and `null`/`undefined`/booleans/numbers/plain objects are never loosely
equal to `"null"`. -/
def looseEqNullStr : JVal → Bool
  | .jstr s => s == "null"
  | .jarr l => JVal.arrToString l == "null"
  | _ => false

def looseEqNullStrO : Option JVal → Bool
  | none => false
  | some v => looseEqNullStr v

/-- `flattenTypeArrayToAnyOf(typeList, resultingSchema)`. -/
def flattenTypeArrayToAnyOf (typeList : List JVal)
    (rs : List (String × JVal)) : Except JsErr (List (String × JVal)) := do
  let rs :=
    if typeList.contains (JVal.jstr "null") then
      setField rs "nullable" (.jbool true)
    else rs
  let listWithoutNull := typeList.filter (fun t => !(t == JVal.jstr "null"))
  match listWithoutNull with
  | [t] => do
      let u ← asUpperType t
      return setField rs "type" (.jstr (mapTypeEnum u))
  | l => do
      let elems ← l.mapM (fun t => do
        let u ← asUpperType t
        return JVal.jobj [("type", .jstr (mapTypeEnum u))])
      return setField rs "anyOf" (.jarr elems)

/-- One iteration of the `for (const item of fieldValue)` loop in the
`anyOf` branch of `processJsonSchema`'s field loop: a `null` item's
`item["type"]` access throws, an item whose `type` is loosely `== "null"`
sets `nullable` and is dropped, any other item is converted and collected.
`rec` is the recursive `processJsonSchema` call. -/
def anyOfStep (rec : JVal → Except JsErr JVal)
    (st : List (String × JVal) × List JVal) (item : JVal) :
    Except JsErr (List (String × JVal) × List JVal) :=
  if item == JVal.jnull then throw JsErr.typeError
  else if looseEqNullStrO (getF item "type") then
    pure (setField st.1 "nullable" (.jbool true), st.2)
  else do
    let v ← rec item
    pure (st.1, st.2 ++ [v])

/-- One iteration of the `properties` dictionary rebuild:
`dictSchemaFieldValue[key] = processJsonSchema(value)`. -/
def propStep (rec : JVal → Except JsErr JVal)
    (d : List (String × JVal)) (kv : String × JVal) :
    Except JsErr (List (String × JVal)) := do
  let v ← rec kv.2
  pure (setField d kv.1 v)

/-- One iteration of `processJsonSchema`'s field loop (the
`for (const [fieldName, fieldValue] of Object.entries(_jsonSchema))` body);
`rec` is the recursive call at the remaining fuel. -/
def processField (rec : JVal → Except JsErr JVal)
    (gen : List (String × JVal)) (fieldName : String) (fieldValue : JVal) :
    Except JsErr (List (String × JVal)) := do
  -- `if (fieldValue == null) continue;`
  if fieldValue == JVal.jnull then return gen
  if fieldName == "type" then
    if fieldValue == JVal.jstr "null" then
      throw (.jsError "type: null can not be the only possible type for the field.")
    else
      match fieldValue with
      | .jarr _ => return gen
      | _ => do
          let u ← asUpperType fieldValue
          return setField gen "type" (.jstr (mapTypeEnum u))
  else if fieldName == "items" then do
    let v ← rec fieldValue
    return setField gen "items" v
  else if fieldName == "anyOf" then do
    let items ← jsIterate fieldValue
    let st ← items.foldlM (anyOfStep rec) (gen, [])
    return setField st.1 "anyOf" (.jarr st.2)
  else if fieldName == "properties" then do
    let es ← jsEntries fieldValue
    let dict ← es.foldlM (propStep rec) []
    return setField gen "properties" (.jobj dict)
  else if fieldName == "additionalProperties" then return gen
  else return setField gen fieldName fieldValue

/-- The two-element nullable `anyOf` collapse at the top of
`processJsonSchema`: returns the initial `genAISchema` fields and the
(possibly replaced) `_jsonSchema`. -/
def collapseNullable (aOpt : Option JVal) (js : JVal) :
    List (String × JVal) × JVal :=
  match aOpt with
  | some (.jarr [e0, e1]) =>
      if truthy e0 && (getF e0 "type" == some (.jstr "null")) then
        ([("nullable", .jbool true)], e1)
      else if truthy e1 && (getF e1 "type" == some (.jstr "null")) then
        ([("nullable", .jbool true)], e0)
      else ([], js)
  | _ => ([], js)

/-- The remainder of `processJsonSchema` after the conflict check and the
collapse: the type-array flattening and the field loop, on the (possibly
replaced) `_jsonSchema`. -/
def processSchemaRest (rec : JVal → Except JsErr JVal)
    (gen0 : List (String × JVal)) (js : JVal) : Except JsErr JVal := do
  -- `if (_jsonSchema["type"] && Array.isArray(_jsonSchema["type"]))`
  let tOpt2 ← jsGet js "type"
  let gen1 ←
    match tOpt2 with
    | some (.jarr tl) => flattenTypeArrayToAnyOf tl gen0
    | _ => pure gen0
  let entries ← jsEntries js
  let gen2 ← entries.foldlM (fun gen kv => processField rec gen kv.1 kv.2) gen1
  return .jobj gen2

/-- `processJsonSchema(_jsonSchema)` at explicit fuel. -/
def processJsonSchemaF : Nat → JVal → Except JsErr JVal
  | 0, _ => .error .outOfFuel
  | fuel + 1, js => do
    -- `if (_jsonSchema["type"] && _jsonSchema["anyOf"]) throw ...`
    let tOpt ← jsGet js "type"
    let aOpt ← jsGet js "anyOf"
    if truthyO tOpt && truthyO aOpt then
      throw (.jsError "type and anyOf cannot be both populated.")
    else
      let st := collapseNullable aOpt js
      processSchemaRest (processJsonSchemaF fuel) st.1 st.2

/-- `processJsonSchema`; the fuel strictly dominates the recursion depth,
so the `outOfFuel` branch is unreachable from here. -/
def processJsonSchema (js : JVal) : Except JsErr JVal :=
  processJsonSchemaF (JVal.jsize js + 1) js

/-! ### Shape invariant of the adapter's outputs

`wfJ` characterises the schemas `processJsonSchema` produces: objects with
pairwise-distinct keys, no `null` values, no `additionalProperties`, every
`type` an enumerated upper-case name, `items`/`anyOf`/`properties`
recursively of the same shape, and no `anyOf` element with a literal
`"null"` type.  It drives the conditional idempotence proof. -/

mutual

def wfJ : JVal → Bool
  | .jobj fs => wfFields fs
  | _ => false

/-- A well-formed `type` value: an enumerated type-name string. -/
def typeOk : JVal → Bool
  | .jstr t => typeEnumValues.contains t
  | _ => false

/-- A well-formed `anyOf` value: an array of well-formed elements. -/
def anyOfOk : JVal → Bool
  | .jarr l => wfElems l
  | _ => false

/-- A well-formed `properties` value: an object of well-formed values. -/
def propsOk : JVal → Bool
  | .jobj d => wfProps d
  | _ => false

def wfFields : List (String × JVal) → Bool
  | [] => true
  | (k, v) :: rest =>
      !(v == JVal.jnull) &&
      !(k == "additionalProperties") &&
      (if k == "type" then typeOk v
       else if k == "items" then wfJ v
       else if k == "anyOf" then anyOfOk v
       else if k == "properties" then propsOk v
       else true) &&
      !(rest.any (fun p => p.1 == k)) &&
      wfFields rest

def wfElems : List JVal → Bool
  | [] => true
  | e :: rest => wfJ e && !(looseEqNullStrO (getF e "type")) && wfElems rest

def wfProps : List (String × JVal) → Bool
  | [] => true
  | (k, v) :: rest =>
      wfJ v && !(rest.any (fun p => p.1 == k)) && wfProps rest

end

/-- The per-key condition of `wfFields` as a standalone function. -/
def keyCond (k : String) (v : JVal) : Bool :=
  if k == "type" then typeOk v
  else if k == "items" then wfJ v
  else if k == "anyOf" then anyOfOk v
  else if k == "properties" then propsOk v
  else true

/-- The conditions a key/value pair must meet to be assigned into a
well-formed field list. -/
def goodKV (k : String) (v : JVal) : Bool :=
  !(v == JVal.jnull) && !(k == "additionalProperties") && keyCond k v

/-! ## `tTool` and the tool part of `GeminiCLITransformer.transformRequestIn` -/

/-- One entry of a `tools[...].functionDeclarations` array. -/
structure FunctionDecl where
  name : Option String
  description : Option String
  parameters : Option JVal
  parametersJsonSchema : Option JVal
  response : Option JVal
  responseJsonSchema : Option JVal
  deriving Repr, DecidableEq

/-- The body of `tTool`'s per-declaration loop, for the `parameters` /
`parametersJsonSchema` pair and again for `response` /
`responseJsonSchema`. -/
def tToolSchemaPair (schema : Option JVal) (rawSchema : Option JVal) :
    Except JsErr (Option JVal × Option JVal) := do
  if truthyO schema then
    match schema with
    | some p =>
        if !((jsKeys p).contains "$schema") then do
          let p' ← processJsonSchema p
          return (some p', rawSchema)
        else
          if !(truthyO rawSchema) then
            return (none, some p)
          else
            return (schema, rawSchema)
    | none => return (schema, rawSchema)
  else
    return (schema, rawSchema)

def tToolDecl (fd : FunctionDecl) : Except JsErr FunctionDecl := do
  let pPair ← tToolSchemaPair fd.parameters fd.parametersJsonSchema
  let rPair ← tToolSchemaPair fd.response fd.responseJsonSchema
  return { fd with
    parameters := pPair.1, parametersJsonSchema := pPair.2,
    response := rPair.1, responseJsonSchema := rPair.2 }

/-- `tTool` applied to the one `{functionDeclarations}` tool the request
transcoder builds. -/
def tTool (decls : List FunctionDecl) : Except JsErr (List FunctionDecl) :=
  decls.mapM tToolDecl

/-- One canonical request tool (`tool.function`). -/
structure OpenAIToolFn where
  name : String
  description : Option String
  parameters : Option JVal
  deriving Repr, DecidableEq

/-- The declarations built by `transformRequestIn`:
each non-`web_search` tool's schema goes verbatim into
`parametersJsonSchema`, never into `parameters`. -/
def geminiFunctionDecls (tools : List OpenAIToolFn) : List FunctionDecl :=
  (tools.filter (fun t => t.name ≠ "web_search")).map fun t =>
    { name := some t.name, description := t.description,
      parameters := none, parametersJsonSchema := t.parameters,
      response := none, responseJsonSchema := none }

/-- The `tools` array of the upstream body, as (function declarations,
whether a `googleSearch` tool is added). -/
def geminiRequestTools (tools : List OpenAIToolFn) :
    Except JsErr (List FunctionDecl × Bool) := do
  let fds := geminiFunctionDecls tools
  let fds' ← if fds.length ≠ 0 then tTool fds else pure []
  return (fds', tools.any (fun t => t.name == "web_search"))

/-! # Theorems -/

/-- **C1**: for every sequence of SSE text-delta events with fragments
`f1..fn` processed by the stream transcoder's event handler, exactly one
canonical chunk is emitted per text fragment, in arrival order (and the
stream state is untouched), and the concatenation of the emitted
`delta.content` values in emission order equals `f1+f2+...+fn`. -/
theorem text_delta_order_preservation (s : StreamState) (fs : List String) :
    processSSEEvents (fs.map fun f => .contentBlockDelta (.textDelta f)) s
      = (s, fs.map fun f =>
          ({ id := s.messageId, model := s.model,
             delta := { content := some f }, finish_reason := none } : Chunk)) ∧
    strConcat ((processSSEEvents (fs.map fun f => .contentBlockDelta (.textDelta f)) s).2.filterMap
        fun c => c.delta.content) = strConcat fs := by
  have h1 : processSSEEvents (fs.map fun f => .contentBlockDelta (.textDelta f)) s
      = (s, fs.map fun f =>
          ({ id := s.messageId, model := s.model,
             delta := { content := some f }, finish_reason := none } : Chunk)) := by
    induction fs with
    | nil => simp [processSSEEvents]
    | cons f rest ih =>
        simp only [List.map_cons, processSSEEvents, processSSEEvent, ih,
          List.singleton_append]
  refine ⟨h1, ?_⟩
  rw [h1]
  simp [List.filterMap_map, Function.comp_def, List.filterMap_some]

/-- **C10**: if an `input_json_delta` event arrives while the
ToolCallBuffer is empty, the event handler emits no canonical chunk and
leaves the entire stream state (the buffer included) unchanged. -/
theorem orphan_input_json_delta_ignored (s : StreamState) (p : String)
    (h : s.toolCallsBuffer = []) :
    processSSEEvent (.contentBlockDelta (.inputJsonDelta p)) s = (s, []) := by
  simp [processSSEEvent, h]

/-- Witness for `orphan_input_json_delta_ignored` at the initial stream
state and a concrete fragment. -/
theorem orphan_input_json_delta_ignored_witness :
    StreamState.initial.toolCallsBuffer = [] ∧
    processSSEEvent (.contentBlockDelta (.inputJsonDelta "\x7b\x22x\x22:1\x7d"))
      StreamState.initial = (StreamState.initial, []) :=
  ⟨rfl, orphan_input_json_delta_ignored StreamState.initial _ rfl⟩

/-- Helper: folding a run of `input_json_delta` events over a state whose
buffer ends in entry `e` appends the concatenated fragments to `e` (and to
nothing else), emitting one argument chunk per fragment at the last
buffer index. -/
theorem processSSEEvents_inputJson (B : List ToolCallEntry) (ps : List String) :
    ∀ (s : StreamState) (e : ToolCallEntry),
    s.toolCallsBuffer = B ++ [e] →
    processSSEEvents (ps.map fun p => .contentBlockDelta (.inputJsonDelta p)) s
      = ({ s with toolCallsBuffer :=
             B ++ [{ e with arguments := e.arguments ++ strConcat ps }] },
         ps.map (argFragmentChunk s.messageId s.model B.length)) := by
  induction ps with
  | nil =>
      intro s e h
      simp [processSSEEvents, strConcat, ← h]
  | cons p rest ih =>
      intro s e h
      have hstep : processSSEEvent (.contentBlockDelta (.inputJsonDelta p)) s
          = ({ s with toolCallsBuffer :=
                 B ++ [{ e with arguments := e.arguments ++ p }] },
             [argFragmentChunk s.messageId s.model B.length p]) := by
        simp [processSSEEvent, h, List.getLast?_concat, List.dropLast_concat,
          argFragmentChunk]
      have ih' := ih { s with toolCallsBuffer :=
          B ++ [{ e with arguments := e.arguments ++ p }] }
        { e with arguments := e.arguments ++ p } rfl
      simp only [List.map_cons, processSSEEvents, hstep, ih']
      simp [strConcat, String.append_assoc, List.singleton_append]

/-- **C2**: a `tool_use` `content_block_start` followed by `input_json_delta`
fragments `p1..pn` appends exactly one new ToolCallBuffer entry whose
`arguments` equals `p1+...+pn` (fragments appended strictly in arrival
order), leaves every pre-existing entry in place and order, and each
emitted `tool_calls`-delta chunk carries exactly the new fragment at that
entry's index. -/
theorem tool_call_buffer_accumulation (s : StreamState) (idx : Option Nat)
    (id name : String) (ps : List String) :
    processSSEEvents
        (.contentBlockStart idx { type := some "tool_use", id := id, name := name } ::
          ps.map fun p => .contentBlockDelta (.inputJsonDelta p)) s
      = ({ s with
             currentBlockIndex := idx.getD s.currentBlockIndex,
             currentBlockType := some "tool_use",
             toolCallsBuffer := s.toolCallsBuffer ++
               [{ id := id, name := name, arguments := strConcat ps }] },
         toolStartChunk s.messageId s.model s.toolCallsBuffer.length id name ::
           ps.map (argFragmentChunk s.messageId s.model s.toolCallsBuffer.length)) := by
  have hstart : processSSEEvent
      (.contentBlockStart idx { type := some "tool_use", id := id, name := name }) s
      = ({ s with
             currentBlockIndex := idx.getD s.currentBlockIndex,
             currentBlockType := some "tool_use",
             toolCallsBuffer := s.toolCallsBuffer ++
               [{ id := id, name := name, arguments := "" }] },
         [toolStartChunk s.messageId s.model s.toolCallsBuffer.length id name]) := by
    simp [processSSEEvent, toolStartChunk]
  have hrest := processSSEEvents_inputJson s.toolCallsBuffer ps
    { s with
        currentBlockIndex := idx.getD s.currentBlockIndex,
        currentBlockType := some "tool_use",
        toolCallsBuffer := s.toolCallsBuffer ++
          [{ id := id, name := name, arguments := "" }] }
    { id := id, name := name, arguments := "" } rfl
  simp only [processSSEEvents, hstart, hrest]
  simp [List.singleton_append]

/-- **C3, counterexample**: the claim says every non-null value outside the
four-row table passes through unchanged; the empty string is such a value,
yet `stopReason || null` sends it to `null`. -/
theorem mapStopReason_empty_string_cex :
    mapStopReason (some "") = none ∧
    "" ∉ ["end_turn", "max_tokens", "tool_use", "stop_sequence"] ∧
    mapStopReason (some "") ≠ some "" := by decide

/-- **C3, amended**: the finish-reason mapping is a pure total function:
`end_turn ↦ stop`, `max_tokens ↦ length`, `tool_use ↦ tool_calls`,
`stop_sequence ↦ stop`; any other *non-empty* value passes through
unchanged; null (or absent) *and the empty string* map to null; and the
same function gives the finish reason of both the non-stream response
transcoder and the stream transcoder's terminal (`message_delta`) chunk. -/
theorem mapStopReason_amended :
    mapStopReason (some "end_turn") = some "stop" ∧
    mapStopReason (some "max_tokens") = some "length" ∧
    mapStopReason (some "tool_use") = some "tool_calls" ∧
    mapStopReason (some "stop_sequence") = some "stop" ∧
    (∀ x : String, x ∉ ["end_turn", "max_tokens", "tool_use", "stop_sequence"] →
       x ≠ "" → mapStopReason (some x) = some x) ∧
    mapStopReason (some "") = none ∧
    mapStopReason none = none ∧
    (∀ data : AnthropicResponse,
       (anthropicTransformJsonResponse data).1.finish_reason
         = mapStopReason data.stop_reason) ∧
    (∀ r u (s : StreamState),
       (processSSEEvent (.messageDelta r u) s).2.map (fun c => c.finish_reason)
         = [mapStopReason r]) := by
  refine ⟨rfl, rfl, rfl, rfl, ?_, rfl, rfl, fun _ => rfl, fun r u s => rfl⟩
  intro x hx hne
  simp only [List.mem_cons, List.not_mem_nil, or_false, not_or] at hx
  simp [mapStopReason, hx.1, hx.2.1, hx.2.2.1, hx.2.2.2, hne]

/-- Witness for `mapStopReason_amended`: its pass-through component at the
unmapped value `"refusal"`. -/
theorem mapStopReason_amended_witness :
    mapStopReason (some "refusal") = some "refusal" :=
  mapStopReason_amended.2.2.2.2.1 "refusal" (by decide) (by decide)

/-- **C5, counterexample**: the Claude/Kimi stream read loop, on a clean
end of stream whose input is not newline-terminated, still carries the
non-empty partial line `"data: x"` — and processes no line at all: the
carried partial line is dropped, not flushed. -/
theorem claude_partial_line_dropped_cex :
    claudeProcessedLines [] ["data: x".data] = [] ∧
    finalCarry [] ["data: x".data] = "data: x".data ∧
    "data: x".data ≠ [] := by decide

/-- **C5, amended**: only the Gemini stream read loop flushes the carried
partial line on clean end of stream — its processed lines are exactly the
Claude/Kimi loop's complete lines followed by the final carry when that
carry is non-empty; the Claude/Kimi loops process the complete lines only
and discard the carry. -/
theorem framing_final_line_amended (buffer : List Char) (reads : List (List Char)) :
    geminiProcessedLines buffer reads
      = claudeProcessedLines buffer reads ++
          (if finalCarry buffer reads = [] then []
           else [finalCarry buffer reads]) := by
  induction reads generalizing buffer with
  | nil =>
      by_cases h : buffer = [] <;>
        simp [geminiProcessedLines, claudeProcessedLines, finalCarry, h]
  | cons r rs ih =>
      simp only [geminiProcessedLines, claudeProcessedLines, finalCarry, ih,
        List.append_assoc]

/-- **C9, counterexample**: the claim says all text blocks are joined with
newline separators; the Claude/Kimi non-stream transcoder joins them with
`""` (`textParts.join("")`): two text blocks `"a"`, `"b"` yield `"ab"`,
not `"a\nb"`. -/
theorem json_text_concat_cex :
    (anthropicTransformJsonResponse
        { model := "m", stop_reason := none,
          content := [.text "a", .text "b"],
          input_tokens := 0, output_tokens := 0 }).1.content = "ab" ∧
    "ab" ≠ "a" ++ "\n" ++ "b" := by decide

/-- Helper: the `textParts` accumulator of `_transformJsonResponse`'s block
loop collects exactly the text blocks, in document order. -/
theorem anthropicRespFold_content (blocks : List AnthropicRespBlock) :
    ∀ tp r tc,
    (anthropicRespFold blocks tp r tc).1
      = tp ++ blocks.filterMap
          (fun b => match b with | .text t => some t | _ => none) := by
  induction blocks with
  | nil => intro tp r tc; simp [anthropicRespFold]
  | cons b rest ih =>
      intro tp r tc
      cases b <;> simp [anthropicRespFold, ih]

/-- **C9, amended**: the Claude/Kimi non-stream transcoder's canonical
content is the concatenation of all text-type blocks in document order with
*no* separator; the Gemini non-stream transcoder joins the *truthy* text
parts (empty strings are filtered out) with `"\n"`. -/
theorem json_text_extraction_amended :
    (∀ data : AnthropicResponse,
       (anthropicTransformJsonResponse data).1.content
         = String.join (data.content.filterMap
             (fun b => match b with | .text t => some t | _ => none))) ∧
    (∀ data : GeminiResponse,
       (geminiTransformJsonResponse data).1.content
         = String.intercalate "\n" (data.parts.filterMap fun p =>
             match p.text with
             | some t => if t = "" then none else some t
             | none => none)) := by
  refine ⟨fun data => ?_, fun data => rfl⟩
  show String.join (anthropicRespFold data.content [] none []).1 = _
  rw [anthropicRespFold_content]
  simp

/-- **C4, counterexample**: a Gemini stream of two well-formed upstream
payloads emits two canonical chunks and `delta.role` is present on both —
not on at most one, and not only on the first. -/
theorem gemini_role_on_every_chunk_cex :
    ((geminiStreamEmit
        [{ responseId := some "r1", modelVersion := some "m",
           parts := [{ text := some "hi", functionCall := none }],
           finishReason := none, promptTokens := 1, candidatesTokens := 1,
           totalTokens := 2 },
         { responseId := some "r1", modelVersion := some "m",
           parts := [{ text := some "there", functionCall := none }],
           finishReason := some "STOP", promptTokens := 1,
           candidatesTokens := 2, totalTokens := 3 }]).filter
      fun c => c.delta.role.isSome).length = 2 := by decide

/-- Helper: every chunk the Anthropic-style event handler emits for a
non-`message_start` event has no `role` in its delta. -/
theorem processSSEEvent_role_none (e : AnthropicEvent) (s : StreamState)
    (he : e.isMessageStart = false) :
    ∀ c ∈ (processSSEEvent e s).2, c.delta.role = none := by
  cases e with
  | messageStart id model tok => simp [AnthropicEvent.isMessageStart] at he
  | contentBlockStart idx block =>
      by_cases hb : block.type = some "tool_use" <;>
        simp [processSSEEvent, hb, toolStartChunk]
  | contentBlockDelta d =>
      cases d with
      | inputJsonDelta p =>
          cases hl : s.toolCallsBuffer.getLast? <;>
            simp [processSSEEvent, hl]
      | _ => simp [processSSEEvent]
  | _ => simp [processSSEEvent]

/-- Helper: a run of events containing no `message_start` emits only
role-free chunks. -/
theorem processSSEEvents_role_none (es : List AnthropicEvent) :
    ∀ s : StreamState, (∀ e ∈ es, e.isMessageStart = false) →
    ∀ c ∈ (processSSEEvents es s).2, c.delta.role = none := by
  induction es with
  | nil => intro s _ c hc; simp [processSSEEvents] at hc
  | cons e rest ih =>
      intro s h c hc
      simp only [processSSEEvents] at hc
      rw [List.mem_append] at hc
      rcases hc with hc | hc
      · exact processSSEEvent_role_none e s (h e (by simp)) c hc
      · exact ih _ (fun e' he' => h e' (by simp [he'])) c hc

/-- **C4, amended**: in the Claude/Kimi stream transcoder, `delta.role`
appears only on the chunk emitted for a `message_start` event, so for any
stream in which `message_start` occurs at most as the first event, role
appears in at most one emitted chunk and, when it appears, on the first
emitted chunk.  The Gemini stream transcoder instead emits
`role: "assistant"` on every chunk. -/
theorem role_emission_amended :
    (∀ (s : StreamState) (es : List AnthropicEvent),
       (∀ e ∈ es.tail, e.isMessageStart = false) →
       (((processSSEEvents es s).2.filter fun c => c.delta.role.isSome).length ≤ 1 ∧
        ∀ c ∈ (processSSEEvents es s).2, c.delta.role.isSome →
          (processSSEEvents es s).2.head? = some c)) ∧
    (∀ gc : GeminiResponse, (geminiStreamChunk gc).delta.role = some "assistant") := by
  constructor
  · intro s es h
    cases es with
    | nil => simp [processSSEEvents]
    | cons e rest =>
        by_cases he : e.isMessageStart = false
        · have hrest : ∀ c ∈ (processSSEEvents rest (processSSEEvent e s).1).2,
              c.delta.role = none :=
            processSSEEvents_role_none rest _ (by simpa using h)
          have hfirst : ∀ c ∈ (processSSEEvent e s).2, c.delta.role = none :=
            processSSEEvent_role_none e s he
          have hall : ∀ c ∈ (processSSEEvents (e :: rest) s).2, c.delta.role = none := by
            intro c hc
            simp only [processSSEEvents] at hc
            rw [List.mem_append] at hc
            rcases hc with hc | hc
            · exact hfirst c hc
            · exact hrest c hc
          constructor
          · have : ((processSSEEvents (e :: rest) s).2.filter
                fun c => c.delta.role.isSome) = [] := by
              rw [List.filter_eq_nil_iff]
              intro c hc
              simp [hall c hc]
            simp [this]
          · intro c hc hrole
            rw [hall c hc] at hrole
            simp at hrole
        · cases e with
          | messageStart id model tok =>
              have hrest : ∀ c ∈ (processSSEEvents rest
                  (processSSEEvent (AnthropicEvent.messageStart id model tok) s).1).2,
                  c.delta.role = none :=
                processSSEEvents_role_none rest _ (by simpa using h)
              have hunfold :
                  (processSSEEvents (AnthropicEvent.messageStart id model tok :: rest) s).2
                  = ({ id := id, model := model,
                       delta := { role := some "assistant", content := some "" },
                       finish_reason := none } : Chunk) ::
                    (processSSEEvents rest
                      (processSSEEvent (AnthropicEvent.messageStart id model tok) s).1).2 := by
                simp [processSSEEvents, processSSEEvent]
              have hz : ((processSSEEvents rest
                  (processSSEEvent (AnthropicEvent.messageStart id model tok) s).1).2.filter
                    fun c => c.delta.role.isSome) = [] := by
                rw [List.filter_eq_nil_iff]
                intro c hc
                simp [hrest c hc]
              constructor
              · rw [hunfold, List.filter_cons]
                simp [hz]
              · intro c hc hrole
                rw [hunfold] at hc ⊢
                rcases List.mem_cons.mp hc with hc | hc
                · simp [hc]
                · exact absurd hrole (by rw [hrest c hc]; simp)
          | contentBlockStart idx block => simp [AnthropicEvent.isMessageStart] at he
          | contentBlockDelta d => simp [AnthropicEvent.isMessageStart] at he
          | contentBlockStop => simp [AnthropicEvent.isMessageStart] at he
          | messageDelta r u => simp [AnthropicEvent.isMessageStart] at he
          | messageStop => simp [AnthropicEvent.isMessageStart] at he
          | ping => simp [AnthropicEvent.isMessageStart] at he
          | errorEvent => simp [AnthropicEvent.isMessageStart] at he
          | unknown => simp [AnthropicEvent.isMessageStart] at he
  · intro gc
    rfl

/-- Witness for `role_emission_amended` on a concrete two-event stream
starting with `message_start`. -/
theorem role_emission_amended_witness :
    (∀ e ∈ ([AnthropicEvent.messageStart "m1" "mdl" 3,
             .contentBlockDelta (.textDelta "hi")] : List AnthropicEvent).tail,
       e.isMessageStart = false) ∧
    ((processSSEEvents [AnthropicEvent.messageStart "m1" "mdl" 3,
        .contentBlockDelta (.textDelta "hi")] StreamState.initial).2.filter
      fun c => c.delta.role.isSome).length ≤ 1 :=
  ⟨by decide,
   (role_emission_amended.1 StreamState.initial
     [AnthropicEvent.messageStart "m1" "mdl" 3,
      .contentBlockDelta (.textDelta "hi")] (by decide)).1⟩

/-- Helper: computation rules of the `Except` monad. -/
theorem ok_bind {ε α β : Type} (a : α) (f : α → Except ε β) :
    (Except.ok a >>= f) = f a := rfl

theorem pure_bind_exc {ε α β : Type} (a : α) (f : α → Except ε β) :
    ((pure a : Except ε α) >>= f) = f a := rfl

theorem error_bind {ε α β : Type} (e : ε) (f : α → Except ε β) :
    ((Except.error e : Except ε α) >>= f) = .error e := rfl

theorem throw_eq {ε α : Type} (e : ε) : (throw e : Except ε α) = .error e := rfl

theorem map_error {ε α β : Type} (f : α → β) (e : ε) :
    (f <$> (Except.error e : Except ε α)) = .error e := rfl

theorem map_ok {ε α β : Type} (f : α → β) (a : α) :
    (f <$> (Except.ok a : Except ε α)) = .ok (f a) := rfl

/-- Helper: `tTool` leaves a declaration whose `parameters` and `response`
are absent untouched — which is the shape `transformRequestIn` always
builds. -/
theorem tToolDecl_id (fd : FunctionDecl) (hp : fd.parameters = none)
    (hr : fd.response = none) : tToolDecl fd = .ok fd := by
  have h1 : tToolSchemaPair fd.parameters fd.parametersJsonSchema
      = .ok (fd.parameters, fd.parametersJsonSchema) := by rw [hp]; rfl
  have h2 : tToolSchemaPair fd.response fd.responseJsonSchema
      = .ok (fd.response, fd.responseJsonSchema) := by rw [hr]; rfl
  simp only [tToolDecl, h1, h2, ok_bind]
  rfl

theorem tTool_id (decls : List FunctionDecl)
    (h : ∀ fd ∈ decls, fd.parameters = none ∧ fd.response = none) :
    tTool decls = .ok decls := by
  induction decls with
  | nil => rfl
  | cons fd rest ih =>
      have h1 := h fd (by simp)
      have h2 : tTool rest = .ok rest := ih fun fd' hfd' => h fd' (by simp [hfd'])
      simp only [tTool] at h2 ⊢
      rw [List.mapM_cons, tToolDecl_id fd h1.1 h1.2, h2]
      rfl

/-- **C7, counterexample**: a tool whose parameter schema has no `$schema`
marker still has its schema moved verbatim to `parametersJsonSchema` with
no `parameters` key — the JSON-Schema adapter is *not* applied, although it
would have produced a different (converted) schema. -/
theorem gemini_tool_schema_unconverted_cex :
    geminiRequestTools
        [{ name := "get_x", description := some "d",
           parameters := some (.jobj [("type", .jarr [.jstr "string", .jstr "null"])]) }]
      = .ok ([{ name := some "get_x", description := some "d",
                parameters := none,
                parametersJsonSchema :=
                  some (.jobj [("type", .jarr [.jstr "string", .jstr "null"])]),
                response := none, responseJsonSchema := none }], false) ∧
    processJsonSchema (.jobj [("type", .jarr [.jstr "string", .jstr "null"])])
      = .ok (.jobj [("nullable", .jbool true), ("type", .jstr "STRING")]) ∧
    (JVal.jobj [("nullable", .jbool true), ("type", .jstr "STRING")])
      ≠ .jobj [("type", .jarr [.jstr "string", .jstr "null"])] ∧
    ¬ (jsKeys (.jobj [("type", .jarr [.jstr "string", .jstr "null"])])).contains "$schema" :=
  ⟨rfl, rfl, by decide, by decide⟩

/-- **C7, amended**: for every canonical request carrying tools, the
Cloud-Code request transcoder copies each non-`web_search` tool's parameter
schema verbatim into the raw-schema field `parametersJsonSchema` and never
populates `parameters`; consequently `tTool`'s conversion branch never
fires and the JSON-Schema adapter is applied to no tool schema, whether or
not the schema declares `$schema`. -/
theorem gemini_tools_verbatim (tools : List OpenAIToolFn) :
    geminiRequestTools tools
      = .ok (geminiFunctionDecls tools, tools.any fun t => t.name == "web_search") ∧
    ∀ fd ∈ geminiFunctionDecls tools, fd.parameters = none := by
  have hdecls : ∀ fd ∈ geminiFunctionDecls tools,
      fd.parameters = none ∧ fd.response = none := by
    intro fd hfd
    simp only [geminiFunctionDecls, List.mem_map] at hfd
    obtain ⟨t, -, rfl⟩ := hfd
    exact ⟨rfl, rfl⟩
  refine ⟨?_, fun fd hfd => (hdecls fd hfd).1⟩
  by_cases hlen : (geminiFunctionDecls tools).length = 0
  · rw [List.length_eq_zero] at hlen
    simp only [geminiRequestTools, hlen]
    rfl
  · simp only [geminiRequestTools]
    rw [if_pos hlen, tTool_id _ hdecls]
    rfl

/-- Witness for `gemini_tools_verbatim` at a concrete one-tool request. -/
theorem gemini_tools_verbatim_witness :
    geminiRequestTools
        [{ name := "get_w", description := none,
           parameters := some (.jobj [("$schema", .jstr "s"), ("type", .jstr "object")]) }]
      = .ok (geminiFunctionDecls
          [{ name := "get_w", description := none,
             parameters := some (.jobj [("$schema", .jstr "s"), ("type", .jstr "object")]) }],
          false) :=
  (gemini_tools_verbatim _).1

/-- **C8, counterexample**: a fragment that populates both `type` and
`anyOf` — with the falsy value `""` as the type — passes the adapter's
conflict check (`_jsonSchema["type"] && _jsonSchema["anyOf"]`) and a
converted schema is returned, with no error thrown. -/
theorem schema_conflict_not_thrown_cex :
    processJsonSchema
        (.jobj [("type", .jstr ""), ("anyOf", .jarr [.jobj [("type", .jstr "string")]])])
      = .ok (.jobj [("type", .jstr "TYPE_UNSPECIFIED"),
                    ("anyOf", .jarr [.jobj [("type", .jstr "STRING")]])]) ∧
    getF (.jobj [("type", .jstr ""), ("anyOf", .jarr [.jobj [("type", .jstr "string")]])]) "type"
      = some (.jstr "") ∧
    getF (.jobj [("type", .jstr ""), ("anyOf", .jarr [.jobj [("type", .jstr "string")]])]) "anyOf"
      = some (.jarr [.jobj [("type", .jstr "string")]]) :=
  ⟨rfl, rfl, rfl⟩

/-- Helper: the field loop throws as soon as it reaches a `type` field
whose value is exactly the string `"null"`. -/
theorem foldlM_processField_type_null (fuel : Nat) (l : List (String × JVal)) :
    ∀ gen : List (String × JVal), l.lookup "type" = some (.jstr "null") →
    ∃ e, l.foldlM
        (fun gen kv => processField (processJsonSchemaF fuel) gen kv.1 kv.2) gen
      = .error e := by
  induction l with
  | nil => intro gen h; simp at h
  | cons kv rest ih =>
      intro gen h
      obtain ⟨k, v⟩ := kv
      by_cases hk : ("type" : String) = k
      · subst hk
        rw [List.lookup_cons] at h
        simp only [beq_self_eq_true] at h
        rw [Option.some_inj] at h
        subst h
        refine ⟨.jsError "type: null can not be the only possible type for the field.", ?_⟩
        rw [List.foldlM_cons]
        have hpf : processField (processJsonSchemaF fuel) gen "type" (.jstr "null")
            = .error (.jsError "type: null can not be the only possible type for the field.") :=
          rfl
        rw [hpf]
        rfl
      · have hbk : (("type" : String) == k) = false := by
          simpa using hk
        rw [List.lookup_cons] at h
        simp only [hbk] at h
        rw [List.foldlM_cons]
        cases hpf : processField (processJsonSchemaF fuel) gen k v with
        | error e => exact ⟨e, rfl⟩
        | ok gen' =>
            obtain ⟨e, he⟩ := ih gen' h
            exact ⟨e, he⟩

/-- **C8, amended**: the JSON-Schema adapter throws the SchemaConflict
error whenever a fragment *enters* it with truthy `type` and truthy
`anyOf` values (a falsy `type` such as `""` escapes the check, as does a
fragment substituted by the two-element nullable-`anyOf` collapse); and it
returns an error — never a converted schema — for every fragment entering
it whose `type` is exactly the string `"null"`. -/
theorem schema_conflict_amended :
    (∀ (js t a : JVal), getF js "type" = some t → truthy t = true →
       getF js "anyOf" = some a → truthy a = true →
       processJsonSchema js
         = .error (.jsError "type and anyOf cannot be both populated.")) ∧
    (∀ js : JVal, getF js "type" = some (.jstr "null") →
       ∃ e, processJsonSchema js = .error e) := by
  constructor
  · intro js t a ht htr ha har
    cases js with
    | jobj fs =>
        simp only [getF] at ht ha
        simp [processJsonSchema, processJsonSchemaF, jsGet, ht, ha, ok_bind,
          truthyO, htr, har, throw_eq]
    | jnull => simp [getF] at ht
    | jbool b => simp [getF] at ht
    | jnum n => simp [getF] at ht
    | jstr s => simp [getF] at ht
    | jarr l => simp [getF] at ht
  · intro js ht
    cases js with
    | jobj fs =>
        simp only [getF] at ht
        by_cases ha : truthyO (fs.lookup "anyOf") = true
        · obtain ⟨a, ha', har⟩ : ∃ a, fs.lookup "anyOf" = some a ∧ truthy a = true := by
            cases h' : fs.lookup "anyOf" with
            | none => rw [h'] at ha; simp [truthyO] at ha
            | some a => exact ⟨a, rfl, by rw [h'] at ha; simpa [truthyO] using ha⟩
          refine ⟨.jsError "type and anyOf cannot be both populated.", ?_⟩
          have hnt : truthy (JVal.jstr "null") = true := rfl
          simp [processJsonSchema, processJsonSchemaF, jsGet, ht, ha', ok_bind,
            truthyO, har, hnt, throw_eq]
        · obtain ⟨e, he⟩ :=
            foldlM_processField_type_null (JVal.jsize (JVal.jobj fs)) fs [] ht
          refine ⟨e, ?_⟩
          have hnt : truthy (JVal.jstr "null") = true := rfl
          cases h' : fs.lookup "anyOf" with
          | none =>
              simp [processJsonSchema, processJsonSchemaF, collapseNullable,
                processSchemaRest, jsGet, jsEntries, ht, h', ok_bind, truthyO,
                he, map_error]
          | some a =>
              rw [h'] at ha
              cases a with
              | jarr l => simp [truthyO, truthy] at ha
              | jnull =>
                  simp [processJsonSchema, processJsonSchemaF, collapseNullable,
                    processSchemaRest, jsGet, jsEntries, ht, h', ok_bind, truthyO,
                    truthy, he, map_error]
              | jbool b =>
                  have hb : b = false := by simpa [truthyO, truthy] using ha
                  subst hb
                  simp [processJsonSchema, processJsonSchemaF, collapseNullable,
                    processSchemaRest, jsGet, jsEntries, ht, h', ok_bind, truthyO,
                    truthy, he, map_error]
              | jnum n =>
                  have hn : (n != 0) = false := by simpa [truthyO, truthy] using ha
                  simp [processJsonSchema, processJsonSchemaF, collapseNullable,
                    processSchemaRest, jsGet, jsEntries, ht, h', ok_bind, truthyO,
                    truthy, hn, he, map_error]
              | jstr s =>
                  have hs : s = "" := by simpa [truthyO, truthy] using ha
                  subst hs
                  simp [processJsonSchema, processJsonSchemaF, collapseNullable,
                    processSchemaRest, jsGet, jsEntries, ht, h', ok_bind, truthyO,
                    truthy, he, map_error]
              | jobj o => simp [truthyO, truthy] at ha
    | jnull => simp [getF] at ht
    | jbool b => simp [getF] at ht
    | jnum n => simp [getF] at ht
    | jstr s => simp [getF] at ht
    | jarr l => simp [getF] at ht

/-- Witness for `schema_conflict_amended`: the conflict error at a concrete
schema with truthy `type` and truthy `anyOf`. -/
theorem schema_conflict_amended_witness :
    processJsonSchema (.jobj [("type", .jstr "string"), ("anyOf", .jarr [])])
      = .error (.jsError "type and anyOf cannot be both populated.") :=
  schema_conflict_amended.1
    (.jobj [("type", .jstr "string"), ("anyOf", .jarr [])])
    (.jstr "string") (.jarr []) rfl rfl rfl rfl

/-! ### Toolbox for the schema-adapter idempotence analysis -/

theorem wfFields_cons_iff {k : String} {v : JVal} {rest : List (String × JVal)} :
    wfFields ((k, v) :: rest) = true ↔
      (goodKV k v = true ∧ (rest.any fun p => p.1 == k) = false ∧
       wfFields rest = true) := by
  simp [wfFields, goodKV, keyCond, Bool.and_eq_true, and_assoc]

theorem setField_fresh {l : List (String × JVal)} {k : String} (v : JVal)
    (h : (l.any fun p => p.1 == k) = false) :
    setField l k v = l ++ [(k, v)] := by
  simp [setField, h]

theorem setField_cons_ne {k0 k : String} (v0 : JVal) {rest : List (String × JVal)}
    (v : JVal) (h : (k0 == k) = false) :
    setField ((k0, v0) :: rest) k v = (k0, v0) :: setField rest k v := by
  by_cases hrest : (rest.any fun p => p.1 == k) = true <;>
    simp [setField, List.any_cons, h, hrest]
  all_goals exact fun hkk => absurd hkk (by simpa using h)

theorem map_replace_id {l : List (String × JVal)} {k : String} (v : JVal)
    (h : (l.any fun p => p.1 == k) = false) :
    (l.map fun p => if p.1 == k then (k, v) else p) = l := by
  induction l with
  | nil => rfl
  | cons p rest ih =>
      rw [List.any_cons] at h
      rcases Bool.or_eq_false_iff.mp h with ⟨h1, h2⟩
      rw [List.map_cons, ih h2, if_neg (by simp [h1])]

theorem any_key_map_replace (l : List (String × JVal)) (k k0 : String) (v : JVal) :
    ((l.map fun p => if p.1 == k then (k, v) else p).any fun p => p.1 == k0)
      = (l.any fun p => p.1 == k0) := by
  induction l with
  | nil => rfl
  | cons p rest ih =>
      by_cases hp : (p.1 == k) = true
      · have hk : p.1 = k := by simpa using hp
        rw [List.map_cons, List.any_cons, if_pos hp, ih, List.any_cons, hk]
      · rw [List.map_cons, List.any_cons, if_neg hp, ih, List.any_cons]

theorem any_key_setField (l : List (String × JVal)) (k k0 : String) (v : JVal) :
    ((setField l k v).any fun p => p.1 == k0)
      = ((l.any fun p => p.1 == k0) || (k == k0)) := by
  by_cases h : (l.any fun p => p.1 == k) = true
  · simp only [setField, h, if_true]
    rw [any_key_map_replace]
    by_cases hk : (k == k0) = true
    · have hk' : k = k0 := by simpa using hk
      subst hk'
      simp [h]
    · simp only [Bool.not_eq_true] at hk
      simp [hk]
  · simp only [Bool.not_eq_true] at h
    simp [setField, h, List.any_append]

theorem wfFields_setField {gen : List (String × JVal)} {k : String} {v : JVal}
    (hwf : wfFields gen = true) (hgood : goodKV k v = true) :
    wfFields (setField gen k v) = true := by
  induction gen with
  | nil =>
      rw [show setField [] k v = [(k, v)] from rfl]
      exact wfFields_cons_iff.mpr ⟨hgood, rfl, rfl⟩
  | cons p rest ih =>
      obtain ⟨k0, v0⟩ := p
      obtain ⟨hg0, hfresh0, hrest⟩ := wfFields_cons_iff.mp hwf
      by_cases hk : (k0 == k) = true
      · have hk' : k0 = k := by simpa using hk
        subst hk'
        have hany : (((k0, v0) :: rest).any fun p => p.1 == k0) = true := by
          simp [List.any_cons]
        simp only [setField, hany, if_true, List.map_cons, beq_self_eq_true,
          if_true]
        rw [map_replace_id v hfresh0]
        exact wfFields_cons_iff.mpr ⟨hgood, hfresh0, hrest⟩
      · simp only [Bool.not_eq_true] at hk
        rw [setField_cons_ne v0 v hk]
        refine wfFields_cons_iff.mpr ⟨hg0, ?_, ih hrest⟩
        rw [any_key_setField, hfresh0]
        simp only [Bool.false_or]
        rcases Bool.eq_false_iff.mp hk with hne
        exact beq_eq_false_iff_ne.mpr fun hkk => hne (by simp [hkk])

theorem wfProps_cons_iff {k : String} {v : JVal} {rest : List (String × JVal)} :
    wfProps ((k, v) :: rest) = true ↔
      (wfJ v = true ∧ (rest.any fun p => p.1 == k) = false ∧
       wfProps rest = true) := by
  simp [wfProps, Bool.and_eq_true, and_assoc]

theorem wfProps_setField {d : List (String × JVal)} {k : String} {v : JVal}
    (hwf : wfProps d = true) (hv : wfJ v = true) :
    wfProps (setField d k v) = true := by
  induction d with
  | nil =>
      rw [show setField [] k v = [(k, v)] from rfl]
      exact wfProps_cons_iff.mpr ⟨hv, rfl, rfl⟩
  | cons p rest ih =>
      obtain ⟨k0, v0⟩ := p
      obtain ⟨hv0, hfresh0, hrest⟩ := wfProps_cons_iff.mp hwf
      by_cases hk : (k0 == k) = true
      · have hk' : k0 = k := by simpa using hk
        subst hk'
        have hany : (((k0, v0) :: rest).any fun p => p.1 == k0) = true := by
          simp [List.any_cons]
        simp only [setField, hany, if_true, List.map_cons, beq_self_eq_true,
          if_true]
        rw [map_replace_id v hfresh0]
        exact wfProps_cons_iff.mpr ⟨hv, hfresh0, hrest⟩
      · simp only [Bool.not_eq_true] at hk
        rw [setField_cons_ne v0 v hk]
        refine wfProps_cons_iff.mpr ⟨hv0, ?_, ih hrest⟩
        rw [any_key_setField, hfresh0]
        simp only [Bool.false_or]
        rcases Bool.eq_false_iff.mp hk with hne
        exact beq_eq_false_iff_ne.mpr fun hkk => hne (by simp [hkk])

theorem wfFields_lookup {E : List (String × JVal)} {k : String} {v : JVal}
    (hwf : wfFields E = true) (hl : E.lookup k = some v) :
    (v == JVal.jnull) = false ∧ keyCond k v = true := by
  induction E with
  | nil => simp at hl
  | cons p rest ih =>
      obtain ⟨k0, v0⟩ := p
      obtain ⟨hg0, -, hrest⟩ := wfFields_cons_iff.mp hwf
      rw [List.lookup_cons] at hl
      by_cases hk : (k == k0) = true
      · rw [hk] at hl
        simp only [if_true] at hl
        rw [Option.some_inj] at hl
        subst hl
        have hk' : k = k0 := by simpa using hk
        subst hk'
        simp only [goodKV, Bool.and_eq_true] at hg0
        exact ⟨by simpa using hg0.1.1, hg0.2⟩
      · simp only [Bool.not_eq_true] at hk
        rw [hk] at hl
        simp only [if_false] at hl
        exact ih hrest hl

/-- The `"null"` string is not one of the enumerated type names, and each
enumerated name is a fixed point of upper-casing and of `mapTypeEnum`. -/
theorem enum_props (t : String) (ht : typeEnumValues.contains t = true) :
    (t == "null") = false ∧ strUpper t = t ∧ mapTypeEnum t = t := by
  have hmem : t = "TYPE_UNSPECIFIED" ∨ t = "STRING" ∨ t = "NUMBER" ∨
      t = "INTEGER" ∨ t = "BOOLEAN" ∨ t = "ARRAY" ∨ t = "OBJECT" ∨
      t = "NULL" := by
    simpa [typeEnumValues] using ht
  rcases hmem with rfl | rfl | rfl | rfl | rfl | rfl | rfl | rfl <;>
    exact ⟨by decide, by decide, by decide⟩

theorem mapTypeEnum_mem (u : String) :
    typeEnumValues.contains (mapTypeEnum u) = true := by
  rw [mapTypeEnum]
  by_cases h : typeEnumValues.contains u = true
  · rw [if_pos h]; exact h
  · rw [if_neg h]; decide

theorem wfJ_not_null_type {e : JVal} (he : wfJ e = true) :
    looseEqNullStrO (getF e "type") = false := by
  cases e with
  | jobj E =>
      simp only [getF]
      cases hl : E.lookup "type" with
      | none => rfl
      | some v =>
          obtain ⟨-, hkc⟩ := wfFields_lookup (by simpa [wfJ] using he) hl
          simp only [keyCond, beq_self_eq_true, if_true] at hkc
          cases v with
          | jstr t =>
              obtain ⟨hne, -, -⟩ := enum_props t (by simpa [typeOk] using hkc)
              simpa [looseEqNullStrO, looseEqNullStr] using hne
          | jnull => simp [typeOk] at hkc
          | jbool b => simp [typeOk] at hkc
          | jnum n => simp [typeOk] at hkc
          | jarr l => simp [typeOk] at hkc
          | jobj o => simp [typeOk] at hkc
  | jnull => simp [wfJ] at he
  | jbool b => simp [wfJ] at he
  | jnum n => simp [wfJ] at he
  | jstr s => simp [wfJ] at he
  | jarr l => simp [wfJ] at he

/-- Generic invariant preservation along `List.foldlM` in `Except`. -/
theorem foldlM_inv {σ α : Type} (P : σ → Prop) (f : σ → α → Except JsErr σ) :
    ∀ (l : List α), (∀ s a s', a ∈ l → P s → f s a = .ok s' → P s') →
    ∀ s s', P s → l.foldlM f s = .ok s' → P s' := by
  intro l
  induction l with
  | nil =>
      intro _ s s' hs h
      simp only [List.foldlM_nil] at h
      cases h
      exact hs
  | cons a t ih =>
      intro hf s s' hs h
      rw [List.foldlM_cons] at h
      cases hstep : f s a with
      | error e => rw [hstep] at h; simp [error_bind] at h
      | ok s1 =>
          rw [hstep, ok_bind] at h
          exact ih (fun s a s' ha => hf s a s' (by simp [ha])) s1 s'
            (hf s a s1 (by simp) hs hstep) h

theorem wfElems_append_singleton {acc : List JVal} {e : JVal}
    (hacc : wfElems acc = true) (he : wfJ e = true) :
    wfElems (acc ++ [e]) = true := by
  induction acc with
  | nil =>
      simp only [List.nil_append, wfElems, Bool.and_eq_true]
      exact ⟨⟨he, by simpa using wfJ_not_null_type he⟩, by simp [wfElems]⟩
  | cons x t ih =>
      simp only [wfElems, Bool.and_eq_true] at hacc ⊢
      exact ⟨hacc.1, ih hacc.2⟩

theorem goodKV_nullable : goodKV "nullable" (.jbool true) = true := rfl

theorem goodKV_type_enum (u : String) :
    goodKV "type" (.jstr (mapTypeEnum u)) = true := by
  simpa [goodKV, keyCond, typeOk] using mapTypeEnum_mem u

/-- The single-type objects produced by `flattenTypeArrayToAnyOf`'s `anyOf`
branch are well-formed. -/
theorem flatten_elem_wf (u : String) :
    wfJ (JVal.jobj [("type", .jstr (mapTypeEnum u))]) = true := by
  simp only [wfJ]
  exact wfFields_cons_iff.mpr ⟨goodKV_type_enum u, rfl, rfl⟩

theorem flatten_mapM_wf :
    ∀ (l : List JVal) (elems : List JVal),
    l.mapM (fun t => do
        let u ← asUpperType t
        pure (JVal.jobj [("type", JVal.jstr (mapTypeEnum u))])) = .ok elems →
    wfElems elems = true := by
  intro l
  induction l with
  | nil =>
      intro elems h
      simp only [List.mapM_nil] at h
      cases h
      rfl
  | cons t rest ih =>
      intro elems h
      rw [List.mapM_cons] at h
      cases hau : asUpperType t with
      | error e => rw [hau] at h; simp [error_bind] at h
      | ok u =>
          rw [hau, ok_bind, pure_bind_exc] at h
          cases hrest : rest.mapM (fun t => do
              let u ← asUpperType t
              pure (JVal.jobj [("type", JVal.jstr (mapTypeEnum u))])) with
          | error e => rw [hrest] at h; simp [error_bind] at h
          | ok es =>
              rw [hrest, ok_bind] at h
              cases h
              simp only [wfElems, Bool.and_eq_true]
              refine ⟨⟨flatten_elem_wf u, ?_⟩, ih es hrest⟩
              simpa using wfJ_not_null_type (flatten_elem_wf u)

theorem flatten_wf {tl : List JVal} {rs rs' : List (String × JVal)}
    (hwf : wfFields rs = true)
    (h : flattenTypeArrayToAnyOf tl rs = .ok rs') :
    wfFields rs' = true := by
  simp only [flattenTypeArrayToAnyOf] at h
  have hrs1 : wfFields (if tl.contains (JVal.jstr "null") = true then
      setField rs "nullable" (.jbool true) else rs) = true := by
    by_cases hc : tl.contains (JVal.jstr "null") = true
    · rw [if_pos hc]; exact wfFields_setField hwf goodKV_nullable
    · rw [if_neg hc]; exact hwf
  set rs1 := if tl.contains (JVal.jstr "null") = true then
      setField rs "nullable" (.jbool true) else rs with hrs1def
  cases hl : tl.filter (fun t => !(t == JVal.jstr "null")) with
  | nil =>
      rw [hl] at h
      simp only [List.mapM_nil, pure_bind_exc] at h
      cases h
      exact wfFields_setField hrs1 (by simp [goodKV, keyCond, anyOfOk, wfElems])
  | cons t0 trest =>
      rw [hl] at h
      cases trest with
      | nil =>
          have h' : (do
              let u ← asUpperType t0
              pure (setField rs1 "type" (JVal.jstr (mapTypeEnum u))))
              = Except.ok rs' := h
          cases hau : asUpperType t0 with
          | error e => rw [hau] at h'; simp [error_bind] at h'
          | ok u =>
              rw [hau, ok_bind] at h'
              cases h'
              exact wfFields_setField hrs1 (goodKV_type_enum u)
      | cons t1 t2 =>
          have h' : (do
              let elems ← (t0 :: t1 :: t2).mapM (fun t => do
                let u ← asUpperType t
                pure (JVal.jobj [("type", JVal.jstr (mapTypeEnum u))]))
              pure (setField rs1 "anyOf" (JVal.jarr elems)))
              = Except.ok rs' := h
          cases hm : (t0 :: t1 :: t2).mapM (fun t => do
              let u ← asUpperType t
              pure (JVal.jobj [("type", JVal.jstr (mapTypeEnum u))])) with
          | error e => rw [hm] at h'; simp [error_bind] at h'
          | ok es =>
              rw [hm, ok_bind] at h'
              cases h'
              exact wfFields_setField hrs1
                (by simp only [goodKV, keyCond, anyOfOk]
                    simpa using flatten_mapM_wf _ es hm)

theorem wfJ_ne_null {v : JVal} (h : wfJ v = true) : (v == JVal.jnull) = false := by
  cases v <;> first | rfl | simp [wfJ] at h

theorem collapse_gen_wf (aOpt : Option JVal) (js : JVal) :
    wfFields (collapseNullable aOpt js).1 = true := by
  have hnul : wfFields [("nullable", JVal.jbool true)] = true :=
    wfFields_cons_iff.mpr ⟨goodKV_nullable, rfl, rfl⟩
  cases aOpt with
  | none => rfl
  | some a =>
      cases a with
      | jarr l =>
          match l with
          | [] => rfl
          | [e0] => rfl
          | [e0, e1] =>
              by_cases h0 : (truthy e0 && (getF e0 "type" == some (.jstr "null"))) = true
              · simp [collapseNullable, h0, hnul]
              · by_cases h1 : (truthy e1 && (getF e1 "type" == some (.jstr "null"))) = true
                · simp [collapseNullable, h0, h1, hnul]
                · have hc : collapseNullable (some (JVal.jarr [e0, e1])) js
                      = ([], js) := by
                    simp [collapseNullable, h0, h1]
                  rw [hc]
                  rfl
          | e0 :: e1 :: e2 :: t => rfl
      | jnull => rfl
      | jbool b => rfl
      | jnum n => rfl
      | jstr s => rfl
      | jobj o => rfl

/-- Output well-formedness of one field-loop iteration, given it for the
recursive calls. -/
theorem pres_processField (fuel : Nat)
    (IH : ∀ js o, processJsonSchemaF fuel js = .ok o → wfJ o = true) :
    ∀ (gen : List (String × JVal)) (k : String) (v : JVal)
      (gen' : List (String × JVal)), wfFields gen = true →
    processField (processJsonSchemaF fuel) gen k v = .ok gen' →
    wfFields gen' = true := by
  intro gen k v gen' hwf h
  by_cases h1 : (v == JVal.jnull) = true
  · simp only [processField, h1, if_true] at h
    cases h
    exact hwf
  · simp only [Bool.not_eq_true] at h1
    by_cases h2 : (k == "type") = true
    · simp only [processField, h1, h2] at h
      by_cases h2b : (v == JVal.jstr "null") = true
      · simp [h2b, throw_eq] at h
      · simp only [Bool.not_eq_true] at h2b
        simp only [h2b] at h
        cases v with
        | jarr l => simp only [Bool.false_eq_true, if_false] at h; cases h; exact hwf
        | jnull => simp at h1
        | jstr s =>
            simp only [Bool.false_eq_true, if_false, asUpperType, map_ok] at h
            cases h
            exact wfFields_setField hwf (goodKV_type_enum (strUpper s))
        | jbool b => simp [asUpperType, map_error] at h
        | jnum n => simp [asUpperType, map_error] at h
        | jobj o => simp [asUpperType, map_error] at h
    · by_cases h3 : (k == "items") = true
      · simp only [processField, h1, h2, h3] at h
        cases hrec : processJsonSchemaF fuel v with
        | error e => rw [hrec] at h; simp [error_bind] at h
        | ok v' =>
            rw [hrec, ok_bind] at h
            cases h
            refine wfFields_setField hwf ?_
            simp only [goodKV, keyCond, Bool.and_eq_true]
            refine ⟨⟨by simpa using wfJ_ne_null (IH v v' hrec), by decide⟩, ?_⟩
            simp [IH v v' hrec]
      · by_cases h4 : (k == "anyOf") = true
        · simp only [processField, h1, h2, h3, h4] at h
          cases hit : jsIterate v with
          | error e => rw [hit] at h; simp [error_bind] at h
          | ok items =>
              rw [hit, ok_bind] at h
              cases hfold : items.foldlM (anyOfStep (processJsonSchemaF fuel))
                  (gen, ([] : List JVal)) with
              | error e => rw [hfold] at h; simp [error_bind] at h
              | ok st =>
                  rw [hfold, ok_bind] at h
                  cases h
                  have hstepinv : ∀ (s : List (String × JVal) × List JVal)
                      (a : JVal) (s' : List (String × JVal) × List JVal),
                      a ∈ items →
                      (wfFields s.1 = true ∧ wfElems s.2 = true) →
                      anyOfStep (processJsonSchemaF fuel) s a = .ok s' →
                      wfFields s'.1 = true ∧ wfElems s'.2 = true := by
                    intro s a s' _ hs hstep
                    by_cases ha1 : (a == JVal.jnull) = true
                    · simp [anyOfStep, ha1, throw_eq] at hstep
                    · simp only [Bool.not_eq_true] at ha1
                      by_cases ha2 : looseEqNullStrO (getF a "type") = true
                      · simp only [anyOfStep, ha1, ha2, Bool.false_eq_true,
                          if_false, if_true] at hstep
                        cases hstep
                        exact ⟨wfFields_setField hs.1 goodKV_nullable, hs.2⟩
                      · simp only [Bool.not_eq_true] at ha2
                        simp only [anyOfStep, ha1, ha2, Bool.false_eq_true,
                          if_false] at hstep
                        cases hrec : processJsonSchemaF fuel a with
                        | error e => rw [hrec] at hstep; simp [error_bind] at hstep
                        | ok v' =>
                            rw [hrec, ok_bind] at hstep
                            cases hstep
                            exact ⟨hs.1,
                              wfElems_append_singleton hs.2 (IH a v' hrec)⟩
                  have hinit : wfFields ((gen, ([] : List JVal))).1 = true
                      ∧ wfElems ((gen, ([] : List JVal))).2 = true :=
                    ⟨hwf, rfl⟩
                  have hstP : wfFields st.1 = true ∧ wfElems st.2 = true :=
                    foldlM_inv
                      (fun st => wfFields st.1 = true ∧ wfElems st.2 = true)
                      (anyOfStep (processJsonSchemaF fuel)) items hstepinv
                      (gen, []) st hinit hfold
                  refine wfFields_setField hstP.1 ?_
                  simp only [goodKV, keyCond, anyOfOk, Bool.and_eq_true]
                  exact ⟨⟨by rfl, by decide⟩, by simp [hstP.2]⟩
        · by_cases h5 : (k == "properties") = true
          · simp only [processField, h1, h2, h3, h4, h5] at h
            cases hje : jsEntries v with
            | error e => rw [hje] at h; simp [error_bind] at h
            | ok es =>
                rw [hje, ok_bind] at h
                cases hfold : es.foldlM (propStep (processJsonSchemaF fuel))
                    ([] : List (String × JVal)) with
                | error e => rw [hfold] at h; simp [error_bind] at h
                | ok dict =>
                    rw [hfold, ok_bind] at h
                    cases h
                    have hdict : wfProps dict = true := by
                      refine foldlM_inv (fun d => wfProps d = true)
                        (propStep (processJsonSchemaF fuel)) es ?_ [] dict rfl hfold
                      intro s a s' _ hs hstep
                      simp only [propStep] at hstep
                      cases hrec : processJsonSchemaF fuel a.2 with
                      | error e => rw [hrec] at hstep; simp [error_bind] at hstep
                      | ok v' =>
                          rw [hrec, ok_bind] at hstep
                          cases hstep
                          exact wfProps_setField hs (IH a.2 v' hrec)
                    refine wfFields_setField hwf ?_
                    simp only [goodKV, keyCond, propsOk, Bool.and_eq_true]
                    exact ⟨⟨by rfl, by decide⟩, by simp [hdict]⟩
          · by_cases h6 : (k == "additionalProperties") = true
            · simp only [processField, h1, h2, h3, h4, h5, h6] at h
              cases h
              exact hwf
            · simp only [processField, h1, h2, h3, h4, h5, h6] at h
              cases h
              refine wfFields_setField hwf ?_
              simp only [goodKV, keyCond, h1, h2, h3, h4, h5, h6]
              simp

/-- Output well-formedness of the flatten-and-loop tail. -/
theorem pres_rest (fuel : Nat)
    (IH : ∀ js o, processJsonSchemaF fuel js = .ok o → wfJ o = true) :
    ∀ (gen0 : List (String × JVal)) (js : JVal) (o : JVal),
    wfFields gen0 = true →
    processSchemaRest (processJsonSchemaF fuel) gen0 js = .ok o →
    wfJ o = true := by
  intro gen0 js o hwf0 h
  simp only [processSchemaRest] at h
  cases hjt : jsGet js "type" with
  | error e => rw [hjt] at h; simp [error_bind] at h
  | ok tOpt2 =>
      rw [hjt, ok_bind] at h
      have tail : ∀ (gen1 : List (String × JVal)), wfFields gen1 = true →
          (do
            let entries ← jsEntries js
            let gen2 ← entries.foldlM
              (fun gen kv => processField (processJsonSchemaF fuel) gen kv.1 kv.2) gen1
            pure (JVal.jobj gen2)) = Except.ok o →
          wfJ o = true := by
        intro gen1 hwf1 h
        cases hje : jsEntries js with
        | error e => rw [hje] at h; simp [error_bind] at h
        | ok entries =>
            rw [hje, ok_bind] at h
            cases hfold : entries.foldlM
                (fun gen kv => processField (processJsonSchemaF fuel) gen kv.1 kv.2)
                gen1 with
            | error e => rw [hfold] at h; simp [error_bind] at h
            | ok gen2 =>
                rw [hfold, ok_bind] at h
                cases h
                simp only [wfJ]
                exact foldlM_inv (fun g => wfFields g = true) _ entries
                  (fun s a s' _ hs hst =>
                    pres_processField fuel IH s a.1 a.2 s' hs hst)
                  gen1 gen2 hwf1 hfold
      cases tOpt2 with
      | none => exact tail gen0 hwf0 h
      | some t =>
          cases t with
          | jarr tl =>
              have h' : (do
                  let gen1 ← flattenTypeArrayToAnyOf tl gen0
                  let entries ← jsEntries js
                  let gen2 ← entries.foldlM
                    (fun gen kv =>
                      processField (processJsonSchemaF fuel) gen kv.1 kv.2)
                    gen1
                  pure (JVal.jobj gen2)) = Except.ok o := h
              cases hfl : flattenTypeArrayToAnyOf tl gen0 with
              | error e => rw [hfl] at h'; simp [error_bind] at h'
              | ok gen1 =>
                  rw [hfl, ok_bind] at h'
                  exact tail gen1 (flatten_wf hwf0 hfl) h'
          | jnull => exact tail gen0 hwf0 h
          | jbool b => exact tail gen0 hwf0 h
          | jnum n => exact tail gen0 hwf0 h
          | jstr s => exact tail gen0 hwf0 h
          | jobj fs2 => exact tail gen0 hwf0 h

/-- Every schema `processJsonSchema` returns satisfies the shape invariant
`wfJ`. -/
theorem pres_main :
    ∀ (fuel : Nat) (js o : JVal),
    processJsonSchemaF fuel js = .ok o → wfJ o = true := by
  intro fuel
  induction fuel with
  | zero => intro js o h; simp [processJsonSchemaF] at h
  | succ fuel ih =>
      intro js o h
      simp only [processJsonSchemaF] at h
      cases hjt : jsGet js "type" with
      | error e => rw [hjt] at h; simp [error_bind] at h
      | ok tOpt =>
          rw [hjt, ok_bind] at h
          cases hja : jsGet js "anyOf" with
          | error e => rw [hja] at h; simp [error_bind] at h
          | ok aOpt =>
              rw [hja, ok_bind] at h
              by_cases hc : (truthyO tOpt && truthyO aOpt) = true
              · rw [if_pos hc] at h; simp [throw_eq] at h
              · rw [if_neg hc] at h
                exact pres_rest fuel ih _ _ o (collapse_gen_wf aOpt js) h

/-- Keys of the right part of a well-formed field list do not occur in the
left part. -/
theorem wfFields_append_elim :
    ∀ (l1 l2 : List (String × JVal)), wfFields (l1 ++ l2) = true →
    wfFields l2 = true ∧
    ∀ k, (l2.any fun p => p.1 == k) = true →
      (l1.any fun p => p.1 == k) = false := by
  intro l1
  induction l1 with
  | nil => intro l2 h; exact ⟨h, fun k _ => rfl⟩
  | cons p t ih =>
      intro l2 h
      obtain ⟨k0, v0⟩ := p
      rw [List.cons_append] at h
      obtain ⟨-, hf, hrest⟩ := wfFields_cons_iff.mp h
      obtain ⟨h2, hfr⟩ := ih l2 hrest
      refine ⟨h2, fun k hk => ?_⟩
      rw [List.any_cons]
      have ht : (t.any fun p => p.1 == k) = false := hfr k hk
      have hk0 : (k0 == k) = false := by
        by_cases hcc : (k0 == k) = true
        · have hke : k0 = k := by simpa using hcc
          subst hke
          rw [List.any_append] at hf
          rcases Bool.or_eq_false_iff.mp hf with ⟨-, hl2⟩
          rw [hk] at hl2
          simp at hl2
        · simpa using hcc
      simp [ht, hk0]

/-- A value whose `type` is not loosely `"null"` never matches the strict
`== "null"` probe of the nullable-`anyOf` collapse. -/
theorem not_null_type_beq {o : Option JVal} (h : looseEqNullStrO o = false) :
    (o == some (JVal.jstr "null")) = false := by
  cases o with
  | none => rfl
  | some w =>
      by_cases hc : (some w == some (JVal.jstr "null")) = true
      · have h2 : some w = some (JVal.jstr "null") := eq_of_beq hc
        rw [Option.some_inj] at h2
        subst h2
        simp [looseEqNullStrO, looseEqNullStr] at h
      · simpa using hc

/-- On a well-formed schema the two-element nullable-`anyOf` collapse is a
no-op. -/
theorem collapse_wf_id {js : JVal} {aOpt : Option JVal}
    (hwf : wfJ js = true) (hja : jsGet js "anyOf" = .ok aOpt) :
    collapseNullable aOpt js = ([], js) := by
  cases js with
  | jobj fs =>
      have hwfF : wfFields fs = true := by simpa [wfJ] using hwf
      have hja' : (Except.ok (fs.lookup "anyOf") :
          Except JsErr (Option JVal)) = .ok aOpt := hja
      have hl : fs.lookup "anyOf" = aOpt := by injection hja'
      cases aOpt with
      | none => rfl
      | some v =>
          obtain ⟨-, hkc⟩ := wfFields_lookup hwfF hl
          have haO : anyOfOk v = true := by simpa [keyCond] using hkc
          cases v with
          | jarr l =>
              have hle : wfElems l = true := by simpa [anyOfOk] using haO
              cases l with
              | nil => rfl
              | cons e0 l1 =>
                  cases l1 with
                  | nil => rfl
                  | cons e1 l2 =>
                      cases l2 with
                      | cons e2 t => rfl
                      | nil =>
                          simp only [wfElems, Bool.and_eq_true] at hle
                          obtain ⟨⟨he0, hn0⟩, ⟨he1, hn1⟩, -⟩ := hle
                          have c0 : (getF e0 "type"
                              == some (JVal.jstr "null")) = false :=
                            not_null_type_beq (by simpa using hn0)
                          have c1 : (getF e1 "type"
                              == some (JVal.jstr "null")) = false :=
                            not_null_type_beq (by simpa using hn1)
                          simp [collapseNullable, c0, c1]
          | jnull => rfl
          | jbool b => rfl
          | jnum n => rfl
          | jstr s => rfl
          | jobj o => rfl
  | jnull => simp [wfJ] at hwf
  | jbool b => simp [wfJ] at hwf
  | jnum n => simp [wfJ] at hwf
  | jstr s => simp [wfJ] at hwf
  | jarr l => simp [wfJ] at hwf

/-- On well-formed elements the `anyOf` conversion loop is the identity:
no element is `null`, none is dropped as nullable, and each recursive call
returns its input. -/
theorem fix_anyOf_fold (fuel : Nat)
    (IH : ∀ js r, wfJ js = true → processJsonSchemaF fuel js = .ok r →
      r = js) :
    ∀ (elems : List JVal) (acc st : List (String × JVal) × List JVal),
    wfElems elems = true →
    elems.foldlM (anyOfStep (processJsonSchemaF fuel)) acc = .ok st →
    st = (acc.1, acc.2 ++ elems) := by
  intro elems
  induction elems with
  | nil =>
      intro acc st _ h
      simp only [List.foldlM_nil] at h
      cases h
      simp
  | cons e rest ih =>
      intro acc st hwf h
      simp only [wfElems, Bool.and_eq_true] at hwf
      obtain ⟨⟨he, hnn⟩, hrest⟩ := hwf
      have hnull : (e == JVal.jnull) = false := wfJ_ne_null he
      have hnn' : looseEqNullStrO (getF e "type") = false := by simpa using hnn
      rw [List.foldlM_cons] at h
      cases hstep : anyOfStep (processJsonSchemaF fuel) acc e with
      | error er => rw [hstep] at h; simp [error_bind] at h
      | ok s1 =>
          rw [hstep, ok_bind] at h
          have hs1 : s1 = (acc.1, acc.2 ++ [e]) := by
            simp only [anyOfStep, hnull, hnn', Bool.false_eq_true,
              if_false] at hstep
            cases hrec : processJsonSchemaF fuel e with
            | error er => rw [hrec] at hstep; simp [error_bind] at hstep
            | ok e' =>
                rw [hrec, ok_bind] at hstep
                cases hstep
                rw [IH e e' he hrec]
          rw [hs1] at h
          rw [ih (acc.1, acc.2 ++ [e]) st hrest h]
          simp

/-- On a well-formed `properties` dictionary the rebuild loop reproduces
the dictionary. -/
theorem fix_props_fold (fuel : Nat)
    (IH : ∀ js r, wfJ js = true → processJsonSchemaF fuel js = .ok r →
      r = js) :
    ∀ (props d0 dict : List (String × JVal)),
    wfProps props = true →
    (∀ k, (props.any fun p => p.1 == k) = true →
      (d0.any fun p => p.1 == k) = false) →
    props.foldlM (propStep (processJsonSchemaF fuel)) d0 = .ok dict →
    dict = d0 ++ props := by
  intro props
  induction props with
  | nil =>
      intro d0 dict _ _ h
      simp only [List.foldlM_nil] at h
      cases h
      simp
  | cons p rest ih =>
      intro d0 dict hwf hfresh h
      obtain ⟨pk, pv⟩ := p
      obtain ⟨hv, hf0, hrest⟩ := wfProps_cons_iff.mp hwf
      rw [List.foldlM_cons] at h
      cases hstep : propStep (processJsonSchemaF fuel) d0 (pk, pv) with
      | error er => rw [hstep] at h; simp [error_bind] at h
      | ok d1 =>
          rw [hstep, ok_bind] at h
          have hd0 : (d0.any fun p => p.1 == pk) = false :=
            hfresh pk (by simp [List.any_cons])
          have hd1 : d1 = d0 ++ [(pk, pv)] := by
            have hstep' : (do
                let v ← processJsonSchemaF fuel pv
                pure (setField d0 pk v)) = Except.ok d1 := hstep
            cases hrec : processJsonSchemaF fuel pv with
            | error er => rw [hrec] at hstep'; simp [error_bind] at hstep'
            | ok pv' =>
                rw [hrec, ok_bind] at hstep'
                cases hstep'
                rw [IH pv pv' hv hrec]
                exact setField_fresh _ hd0
          rw [hd1] at h
          have hfresh' : ∀ k2, (rest.any fun p => p.1 == k2) = true →
              ((d0 ++ [(pk, pv)]).any fun p => p.1 == k2) = false := by
            intro k2 hk2
            have h1 : (d0.any fun p => p.1 == k2) = false :=
              hfresh k2 (by simp [List.any_cons, hk2])
            have h2 : (pk == k2) = false := by
              by_cases hcc : (pk == k2) = true
              · have hke : pk = k2 := by simpa using hcc
                subst hke
                rw [hk2] at hf0
                simp at hf0
              · simpa using hcc
            simp [List.any_append, List.any_cons, h1, h2]
          rw [ih (d0 ++ [(pk, pv)]) dict hrest hfresh' h]
          simp

/-- On a well-formed key/value pair the field-loop body appends the pair
unchanged (given the recursive calls are the identity). -/
theorem fix_processField (fuel : Nat)
    (IH : ∀ js r, wfJ js = true → processJsonSchemaF fuel js = .ok r →
      r = js) :
    ∀ (done : List (String × JVal)) (k : String) (v : JVal)
      (gen' : List (String × JVal)),
    (done.any fun p => p.1 == k) = false → goodKV k v = true →
    processField (processJsonSchemaF fuel) done k v = .ok gen' →
    gen' = done ++ [(k, v)] := by
  intro done k v gen' hfresh hg h
  simp only [goodKV, Bool.and_eq_true] at hg
  obtain ⟨⟨hv, hap⟩, hkc⟩ := hg
  have hv' : (v == JVal.jnull) = false := by simpa using hv
  have hap' : (k == "additionalProperties") = false := by simpa using hap
  by_cases h2 : (k == "type") = true
  · have hk : k = "type" := by simpa using h2
    have htOk : typeOk v = true := by simpa [keyCond, h2] using hkc
    simp only [processField, hv', h2] at h
    by_cases h2b : (v == JVal.jstr "null") = true
    · simp [h2b, throw_eq] at h
    · simp only [Bool.not_eq_true] at h2b
      simp only [h2b] at h
      cases v with
      | jstr t =>
          simp only [Bool.false_eq_true, if_false, asUpperType, map_ok] at h
          cases h
          have ht : typeEnumValues.contains t = true := by
            simpa [typeOk] using htOk
          obtain ⟨-, hup, hmap⟩ := enum_props t ht
          rw [hup, hmap, hk]
          refine setField_fresh _ ?_
          rw [show "type" = k from hk.symm]
          exact hfresh
      | jarr l => simp [typeOk] at htOk
      | jnull => simp [typeOk] at htOk
      | jbool b => simp [typeOk] at htOk
      | jnum n => simp [typeOk] at htOk
      | jobj o => simp [typeOk] at htOk
  · by_cases h3 : (k == "items") = true
    · have hk : k = "items" := by simpa using h3
      have hwfv : wfJ v = true := by simpa [keyCond, h2, h3] using hkc
      simp only [processField, hv', h2, h3] at h
      cases hrec : processJsonSchemaF fuel v with
      | error er => rw [hrec] at h; simp [error_bind] at h
      | ok v' =>
          rw [hrec, ok_bind] at h
          cases h
          rw [IH v v' hwfv hrec, hk]
          refine setField_fresh _ ?_
          rw [show "items" = k from hk.symm]
          exact hfresh
    · by_cases h4 : (k == "anyOf") = true
      · have hk : k = "anyOf" := by simpa using h4
        have haO : anyOfOk v = true := by
          simpa [keyCond, h2, h3, h4] using hkc
        cases v with
        | jarr elems =>
            have helems : wfElems elems = true := by simpa [anyOfOk] using haO
            simp only [processField, hv', h2, h3, h4] at h
            rw [show jsIterate (JVal.jarr elems) = Except.ok elems from rfl,
              ok_bind] at h
            cases hfold : elems.foldlM (anyOfStep (processJsonSchemaF fuel))
                (done, ([] : List JVal)) with
            | error er => rw [hfold] at h; simp [error_bind] at h
            | ok st =>
                rw [hfold, ok_bind] at h
                cases h
                have hst : st = ((done, ([] : List JVal)).1,
                    (done, ([] : List JVal)).2 ++ elems) :=
                  fix_anyOf_fold fuel IH elems (done, []) st helems hfold
                rw [hst, hk]
                refine setField_fresh _ ?_
                rw [show "anyOf" = k from hk.symm]
                exact hfresh
        | jnull => simp [anyOfOk] at haO
        | jbool b => simp [anyOfOk] at haO
        | jnum n => simp [anyOfOk] at haO
        | jstr s => simp [anyOfOk] at haO
        | jobj o => simp [anyOfOk] at haO
      · by_cases h5 : (k == "properties") = true
        · have hk : k = "properties" := by simpa using h5
          have hpO : propsOk v = true := by
            simpa [keyCond, h2, h3, h4, h5] using hkc
          cases v with
          | jobj props =>
              have hprops : wfProps props = true := by simpa [propsOk] using hpO
              simp only [processField, hv', h2, h3, h4, h5] at h
              rw [show jsEntries (JVal.jobj props) = Except.ok props from rfl,
                ok_bind] at h
              cases hfold : props.foldlM (propStep (processJsonSchemaF fuel))
                  ([] : List (String × JVal)) with
              | error er => rw [hfold] at h; simp [error_bind] at h
              | ok dict =>
                  rw [hfold, ok_bind] at h
                  cases h
                  have hdict : dict = [] ++ props :=
                    fix_props_fold fuel IH props [] dict hprops
                      (fun _ _ => rfl) hfold
                  rw [hdict, hk]
                  refine setField_fresh _ ?_
                  rw [show "properties" = k from hk.symm]
                  exact hfresh
          | jnull => simp [propsOk] at hpO
          | jbool b => simp [propsOk] at hpO
          | jnum n => simp [propsOk] at hpO
          | jstr s => simp [propsOk] at hpO
          | jarr l => simp [propsOk] at hpO
        · simp only [processField, hv', h2, h3, h4, h5, hap'] at h
          cases h
          exact setField_fresh _ hfresh

/-- On a well-formed field list the whole field loop rebuilds the list
verbatim. -/
theorem fix_fold (fuel : Nat)
    (IH : ∀ js r, wfJ js = true → processJsonSchemaF fuel js = .ok r →
      r = js) :
    ∀ (todo done gen2 : List (String × JVal)),
    wfFields (done ++ todo) = true →
    todo.foldlM
      (fun gen kv => processField (processJsonSchemaF fuel) gen kv.1 kv.2)
      done = .ok gen2 →
    gen2 = done ++ todo := by
  intro todo
  induction todo with
  | nil =>
      intro done gen2 _ h
      simp only [List.foldlM_nil] at h
      cases h
      simp
  | cons p rest ih =>
      intro done gen2 hwf h
      obtain ⟨k, v⟩ := p
      rw [List.foldlM_cons] at h
      have h' : processField (processJsonSchemaF fuel) done k v >>=
          (fun s => rest.foldlM
            (fun gen kv =>
              processField (processJsonSchemaF fuel) gen kv.1 kv.2) s)
          = Except.ok gen2 := h
      obtain ⟨hw2, hfreshf⟩ := wfFields_append_elim done ((k, v) :: rest) hwf
      obtain ⟨hgood, hf0, hrest⟩ := wfFields_cons_iff.mp hw2
      have hfresh : (done.any fun p => p.1 == k) = false :=
        hfreshf k (by simp [List.any_cons])
      cases hstep : processField (processJsonSchemaF fuel) done k v with
      | error er => rw [hstep] at h'; simp [error_bind] at h'
      | ok gen1 =>
          rw [hstep, ok_bind] at h'
          have hgen1 : gen1 = done ++ [(k, v)] :=
            fix_processField fuel IH done k v gen1 hfresh hgood hstep
          subst hgen1
          have hwf' : wfFields ((done ++ [(k, v)]) ++ rest) = true := by
            simpa using hwf
          rw [ih (done ++ [(k, v)]) gen2 hwf' h']
          simp

/-- On a well-formed schema the flatten-and-loop tail returns the schema
itself. -/
theorem fix_rest (fuel : Nat)
    (IH : ∀ js r, wfJ js = true → processJsonSchemaF fuel js = .ok r →
      r = js) :
    ∀ (js r : JVal), wfJ js = true →
    processSchemaRest (processJsonSchemaF fuel) [] js = .ok r → r = js := by
  intro js r hwf h
  cases js with
  | jobj fs =>
      have hwfF : wfFields fs = true := by simpa [wfJ] using hwf
      simp only [processSchemaRest] at h
      rw [show jsGet (JVal.jobj fs) "type"
          = Except.ok (fs.lookup "type") from rfl, ok_bind] at h
      have harm : (do
          let entries ← jsEntries (JVal.jobj fs)
          let gen2 ← entries.foldlM
            (fun gen kv =>
              processField (processJsonSchemaF fuel) gen kv.1 kv.2)
            ([] : List (String × JVal))
          pure (JVal.jobj gen2)) = Except.ok r → r = JVal.jobj fs := by
        intro h
        rw [show jsEntries (JVal.jobj fs) = Except.ok fs from rfl,
          ok_bind] at h
        cases hfold : fs.foldlM
            (fun gen kv =>
              processField (processJsonSchemaF fuel) gen kv.1 kv.2)
            ([] : List (String × JVal)) with
        | error e => rw [hfold] at h; simp [error_bind] at h
        | ok gen2 =>
            rw [hfold, ok_bind] at h
            cases h
            rw [fix_fold fuel IH fs [] gen2 (by simpa using hwfF) hfold]
            simp
      generalize hl : fs.lookup "type" = tOpt2 at h
      cases tOpt2 with
      | none => exact harm h
      | some v =>
          cases v with
          | jarr tl =>
              obtain ⟨-, hkc⟩ := wfFields_lookup hwfF hl
              simp [keyCond, typeOk] at hkc
          | jnull => exact harm h
          | jbool b => exact harm h
          | jnum n => exact harm h
          | jstr s => exact harm h
          | jobj o => exact harm h
  | jnull => simp [wfJ] at hwf
  | jbool b => simp [wfJ] at hwf
  | jnum n => simp [wfJ] at hwf
  | jstr s => simp [wfJ] at hwf
  | jarr l => simp [wfJ] at hwf

/-- Every schema satisfying the shape invariant is a fixed point of the
adapter whenever the adapter succeeds on it. -/
theorem fix_main :
    ∀ (fuel : Nat) (js r : JVal), wfJ js = true →
    processJsonSchemaF fuel js = .ok r → r = js := by
  intro fuel
  induction fuel with
  | zero => intro js r _ h; simp [processJsonSchemaF] at h
  | succ fuel ih =>
      intro js r hwf h
      simp only [processJsonSchemaF] at h
      cases hjt : jsGet js "type" with
      | error e => rw [hjt] at h; simp [error_bind] at h
      | ok tOpt =>
          rw [hjt, ok_bind] at h
          cases hja : jsGet js "anyOf" with
          | error e => rw [hja] at h; simp [error_bind] at h
          | ok aOpt =>
              rw [hja, ok_bind] at h
              by_cases hc : (truthyO tOpt && truthyO aOpt) = true
              · rw [if_pos hc] at h; simp [throw_eq] at h
              · rw [if_neg hc] at h
                rw [collapse_wf_id hwf hja] at h
                exact fix_rest fuel ih js r hwf h

/-- C6 counterexample: `processJsonSchema` is not idempotent on every
schema without a `$schema` marker on which it succeeds.  On the schema
`{anyOf: [{type: "null"}, {type: "string", anyOf: [{type: "number"}]}]}`
(no `$schema` key) the first pass succeeds — the two-element nullable
collapse substitutes the second element, whose own `type`/`anyOf` conflict
was never checked — but its output populates both `type` and `anyOf`, so
the second pass throws instead of returning the first result. -/
theorem schema_idempotence_cex :
    getF (JVal.jobj [("anyOf", JVal.jarr
        [JVal.jobj [("type", JVal.jstr "null")],
         JVal.jobj [("type", JVal.jstr "string"),
                    ("anyOf", JVal.jarr
                      [JVal.jobj [("type", JVal.jstr "number")]])]])])
      "$schema" = none ∧
    processJsonSchema (JVal.jobj [("anyOf", JVal.jarr
        [JVal.jobj [("type", JVal.jstr "null")],
         JVal.jobj [("type", JVal.jstr "string"),
                    ("anyOf", JVal.jarr
                      [JVal.jobj [("type", JVal.jstr "number")]])]])])
      = .ok (JVal.jobj
        [("nullable", JVal.jbool true),
         ("type", JVal.jstr "STRING"),
         ("anyOf", JVal.jarr [JVal.jobj [("type", JVal.jstr "NUMBER")]])]) ∧
    processJsonSchema (JVal.jobj
        [("nullable", JVal.jbool true),
         ("type", JVal.jstr "STRING"),
         ("anyOf", JVal.jarr [JVal.jobj [("type", JVal.jstr "NUMBER")]])])
      = .error (.jsError "type and anyOf cannot be both populated.") :=
  ⟨rfl, rfl, rfl⟩

/-- C6 (corrected): conditional idempotence of the JSON-Schema adapter.
Whenever `processJsonSchema` succeeds on a schema AND succeeds again on
the first result, the second result equals the first; the unconditional
form is refuted by `schema_idempotence_cex`, where the second application
throws. -/
theorem schema_idempotence (js o r : JVal)
    (h1 : processJsonSchema js = .ok o)
    (h2 : processJsonSchema o = .ok r) : r = o :=
  fix_main (JVal.jsize o + 1) o r (pres_main (JVal.jsize js + 1) js o h1) h2

/-- Witness for `schema_idempotence` at the concrete schema
`{type: "string"}`: both hypotheses hold by evaluation and the theorem
yields the fixed-point equation. -/
theorem schema_idempotence_witness :
    processJsonSchema (JVal.jobj [("type", JVal.jstr "string")])
        = Except.ok (JVal.jobj [("type", JVal.jstr "STRING")]) ∧
    processJsonSchema (JVal.jobj [("type", JVal.jstr "STRING")])
        = Except.ok (JVal.jobj [("type", JVal.jstr "STRING")]) ∧
    (JVal.jobj [("type", JVal.jstr "STRING")] : JVal)
        = JVal.jobj [("type", JVal.jstr "STRING")] :=
  ⟨rfl, rfl,
    schema_idempotence (JVal.jobj [("type", JVal.jstr "string")])
      (JVal.jobj [("type", JVal.jstr "STRING")])
      (JVal.jobj [("type", JVal.jstr "STRING")]) rfl rfl⟩

end CCR
